import Mathlib

/-!
# Verification of the sref-viewer caching proxy core

A shallow embedding of the proxy logic of `server.js` (the caching reverse
proxy for NOAA SREF plume data), together with proofs about it.

Conventions of the embedding:
* JavaScript `Map` objects (the cache and the token-bucket table) become
  association lists `List (String × α)` whose operations mirror `Map.get`,
  `Map.set` (update in place, append when new) and `Map.delete`.
* Timestamps (`Date.now()`, ISO `cachedAt` strings compared through
  `new Date`) become natural numbers counting milliseconds.
* Numeric series values become rationals; a raw value that `parseFloat`
  cannot read is `none` and is coerced to `0` exactly as `parseFloat(v) || 0`.
* `Array.prototype.sort`, which ECMAScript requires to be stable, is
  modelled by the stable `List.insertionSort`.
* The network is an oracle: a handler receives the outcome the upstream
  fetch would produce, and IO effects are the explicit state threading.
-/

namespace SrefProxy

/-! ## Association lists modelling JavaScript Map objects -/

/-- `Map.get`: the value stored under `k`, if any. -/
def alGet (l : List (String × α)) (k : String) : Option α :=
  (l.find? fun p => decide (p.1 = k)).map (·.2)

/-- `Map.set`: replace in place when the key exists, append otherwise. -/
def alSet (l : List (String × α)) (k : String) (v : α) : List (String × α) :=
  match l with
  | [] => [(k, v)]
  | p :: rest => if p.1 = k then (k, v) :: rest else p :: alSet rest k v

/-- `Map.delete`: remove the entry with key `k`, keeping the order of the rest. -/
def alDelete (l : List (String × α)) (k : String) : List (String × α) :=
  l.filter fun p => decide (p.1 ≠ k)

/-- The keys of the map, in insertion order. -/
def alKeys (l : List (String × α)) : List String := l.map (·.1)

/-- A JavaScript `Map` never holds two entries with the same key. -/
def NodupKeys (l : List (String × α)) : Prop := (alKeys l).Nodup

instance (l : List (String × α)) : Decidable (NodupKeys l) := by
  unfold NodupKeys
  infer_instance

/-! ## TTL policy (`getCacheTTL`) -/

/-- SREF model runs at 03Z, 09Z, 15Z, 21Z; the `modelRuns` constant of the
source (renamed: `modelRuns` collides with a library token). -/
def modelRuns : List Nat := [3, 9, 15, 21]

/-- `new Date(now).getUTCHours()` for an epoch-millisecond clock value. -/
def getUTCHours (now : Nat) : Nat := now / 3600000 % 24

/-- Body of `getCacheTTL` once the current UTC hour has been read from the
clock.  `runIndex` is `modelRuns.indexOf(runHour)`; for a `runHour` that is
one of the four runs the Lean `List.indexOf` agrees with JavaScript. -/
def ttlFromHour (runHour : Nat) (currentUTC : Nat) : Nat :=
  let runIndex := modelRuns.indexOf runHour
  let nextRunHour := modelRuns.getD ((runIndex + 1) % modelRuns.length) 0
  let hoursUntilNext :=
    if currentUTC < nextRunHour then nextRunHour - currentUTC + 2
    else (24 - currentUTC) + nextRunHour + 2
  let ttlHours := max 1 (min 8 hoursUntilNext)
  ttlHours * 60 * 60 * 1000

/-- `getCacheTTL(runHour)` reading the clock `now` (milliseconds). -/
def getCacheTTL (runHour : Nat) (now : Nat) : Nat :=
  ttlFromHour runHour (getUTCHours now)

/-- Modelled from the spec: "determine the next scheduled run after `now`
(wrapping past midnight), add a fixed processing-delay margin (2 hours) to
estimate when that next run will be ready, and use the time remaining until
that estimate as the TTL", clamped to 1–8 hours, at the hour granularity the
code works at.  This follows the words of the specification, to be compared
with `getCacheTTL`. -/
def specClaimTTL (now : Nat) : Nat :=
  let h := getUTCHours now
  let hoursUntilEstimate :=
    match modelRuns.find? fun r => decide (h < r) with
    | some r => r - h + 2
    | none => (24 - h) + 3 + 2
  (max 1 (min 8 hoursUntilEstimate)) * 60 * 60 * 1000

/-- The run following the fetched run in the fixed four-run daily cycle. -/
def cyclicNextRun : Nat → Nat
  | 3 => 9
  | 9 => 15
  | 15 => 21
  | _ => 3

/-- The amended TTL reading: hours until the run that follows the fetched
run in the cycle (measured from the current UTC hour, wrapping past
midnight and counting a full day when the hours coincide), plus the 2-hour
margin, clamped to 1–8 hours. -/
def specAmendedTTL (runHour : Nat) (now : Nat) : Nat :=
  let h := getUTCHours now
  let nxt := cyclicNextRun runHour
  let hoursUntil := if h < nxt then nxt - h + 2 else (24 - h) + nxt + 2
  (max 1 (min 8 hoursUntil)) * 60 * 60 * 1000

/-! ## Cache store (persistent-cache variant of `server.js`) -/

/-- A cache entry: `{ data, expiry, cachedAt }`. -/
structure CacheEntry (α : Type) where
  data : α
  expiry : Nat
  cachedAt : Nat
  deriving DecidableEq, Repr

/-- The cache map. -/
abbrev Cache (α : Type) := List (String × CacheEntry α)

/-- `getFromCache`: a hit returns the data; an entry with `Date.now() >
item.expiry` is deleted and reported as a miss.  Returns the looked-up
value together with the cache after the lookup. -/
def getFromCache (cache : Cache α) (key : String) (now : Nat) :
    Option α × Cache α :=
  match alGet cache key with
  | none => (none, cache)
  | some item =>
      if item.expiry < now then (none, alDelete cache key)
      else (some item.data, cache)

def CACHE_MAX_ENTRIES : Nat := 1000

/-- `CACHE_TTL_DAYS = 14`. -/
def CACHE_TTL_DAYS : Nat := 14

/-- `Math.ceil(CACHE_MAX_ENTRIES * 0.1)` — the number of entries one
eviction sweep removes. -/
def EVICT_COUNT : Nat := 100

/-- The cache entries sorted by `cachedAt` ascending, as
`[...cache.entries()].sort((a, b) => new Date(a[1].cachedAt) - new Date(b[1].cachedAt))`
does (a stable sort, per ECMAScript). -/
def cacheByAge (cache : Cache α) : Cache α :=
  List.insertionSort (fun a b => a.2.cachedAt ≤ b.2.cachedAt) cache

/-- The keys scheduled for removal: the first `EVICT_COUNT` of the
age-sorted entries. -/
def evictVictims (cache : Cache α) : List String :=
  ((cacheByAge cache).take EVICT_COUNT).map (·.1)

/-- The eviction loop of `setInCache`: delete each victim key. -/
def evictOldest (cache : Cache α) : Cache α :=
  (evictVictims cache).foldl (fun acc k => alDelete acc k) cache

/-- `setInCache`: evict the oldest 10% when at capacity, then store the
entry with a fixed 14-day expiry. -/
def setInCache (cache : Cache α) (key : String) (data : α) (now : Nat) :
    Cache α :=
  let cache2 := if CACHE_MAX_ENTRIES ≤ cache.length then evictOldest cache else cache
  alSet cache2 key ⟨data, now + CACHE_TTL_DAYS * 24 * 60 * 60 * 1000, now⟩

/-- A sequence of `put` operations `(key, data, now)` applied to an
initially empty store. -/
def applyPuts (ops : List (String × α × Nat)) : Cache α :=
  ops.foldl (fun c op => setInCache c op.1 op.2.1 op.2.2) []

/-! ## Admission controller (`checkApiRateLimit`) -/

def BUCKET_MAX : Nat := 50
def REFILL_RATE : Nat := 1
def REFILL_INTERVAL : Nat := 1000

/-- One token bucket: `{ tokens, lastRefill }`. -/
structure Bucket where
  tokens : Nat
  lastRefill : Nat
  deriving DecidableEq, Repr

/-- The refill-then-consume step `checkApiRateLimit` performs on an
existing bucket: add `floor(elapsed / REFILL_INTERVAL) * REFILL_RATE`
tokens capped at `BUCKET_MAX`, set `lastRefill = now`, then consume a
token when one is available. -/
def bucketStep (b : Bucket) (now : Nat) : Bool × Bucket :=
  let elapsed := now - b.lastRefill
  let tokensToAdd := elapsed / REFILL_INTERVAL * REFILL_RATE
  let tokens := min BUCKET_MAX (b.tokens + tokensToAdd)
  if 0 < tokens then (true, ⟨tokens - 1, now⟩) else (false, ⟨tokens, now⟩)

/-- `checkApiRateLimit(ip)`: a new client starts with a full bucket, then
the refill-and-consume step runs.  Returns the verdict and the updated
bucket table. -/
def checkApiRateLimit (buckets : List (String × Bucket)) (ip : String)
    (now : Nat) : Bool × List (String × Bucket) :=
  let bucket := (alGet buckets ip).getD ⟨BUCKET_MAX, now⟩
  let (ok, b2) := bucketStep bucket now
  (ok, alSet buckets ip b2)

/-- A client issuing one `checkApiRateLimit` call at each time in `ts`
against its own bucket. -/
def runCalls (b : Bucket) : List Nat → Bucket × List Bool
  | [] => (b, [])
  | t :: ts =>
      let (ok, b2) := bucketStep b t
      let (bFinal, rest) := runCalls b2 ts
      (bFinal, ok :: rest)

/-- Every call comes at or after the previous refill point and strictly
less than one refill interval after it. -/
def SubSecondChain : Nat → List Nat → Prop
  | _, [] => True
  | last, t :: ts => (last ≤ t ∧ t < last + 1000) ∧ SubSecondChain t ts

/-! ## Series processor (`processData`) -/

/-- One chart point `{ x: time, y: value }`. -/
structure Point where
  x : Nat
  y : ℚ
  deriving DecidableEq, Repr

/-- The raw upstream map: label to series, where the `data` field may be
missing (`none`) and each raw value may be unreadable by `parseFloat`
(`none`). -/
abbrev RawSeries := Option (List (Nat × Option ℚ))
abbrev Raw := List (String × RawSeries)

/-- The processed result: label to point list. -/
abbrev Processed := List (String × List Point)

/-- The labels `processData` keeps: those whose `series.data` exists and is
non-empty. -/
def keptMembers (raw : Raw) : List (String × List (Nat × Option ℚ)) :=
  raw.filterMap fun ls =>
    match ls.2 with
    | none => none
    | some d => if d.isEmpty then none else some (ls.1, d)

/-- `series.data.map(([time, value]) => ({ x: time, y: parseFloat(value) || 0 }))`. -/
def toPoints (d : List (Nat × Option ℚ)) : List Point :=
  d.map fun tv => ⟨tv.1, tv.2.getD 0⟩

/-- The member series of the processed result, before `Mean` is added. -/
def members (raw : Raw) : Processed :=
  (keptMembers raw).map fun ld => (ld.1, toPoints ld.2)

/-- Add a time to the `timePoints` set: a JavaScript `Set` keeps the first
occurrence. -/
def insertUniq (acc : List Nat) (t : Nat) : List Nat :=
  if t ∈ acc then acc else acc ++ [t]

/-- The distinct timestamps over all kept series, in first-seen order. -/
def timePoints (raw : Raw) : List Nat :=
  (keptMembers raw).foldl (fun acc ld => (ld.2.map (·.1)).foldl insertUniq acc) []

/-- `Array.from(timePoints).sort((a, b) => a - b)`. -/
def sortedTimes (raw : Raw) : List Nat :=
  List.insertionSort (· ≤ ·) (timePoints raw)

/-- The `Mean` value at one timestamp: iterate the member series, look up
the first point at exactly that time, and average the contributions. -/
def meanAt (ms : Processed) (t : Nat) : Point :=
  let contrib := ms.filterMap fun kp => kp.2.find? fun p => decide (p.x = t)
  ⟨t, if 0 < contrib.length then (contrib.map Point.y).sum / contrib.length else 0⟩

/-- `processData`: keep the non-empty series, then attach the computed
`Mean` series when any member is present (`processed['Mean'] = ...`
overwrites in place when the raw map already held that label). -/
def processData (raw : Raw) : Processed :=
  let ms := members raw
  if ms.isEmpty then ms
  else alSet ms "Mean" ((sortedTimes raw).map (meanAt ms))

/-- `Object.keys(processed).filter(k => k !== 'Mean').length`. -/
def memberCount (p : Processed) : Nat :=
  (p.filter fun kv => decide (kv.1 ≠ "Mean")).length

/-! ## Upstream failure classification and retry policy -/

/-- The failure modes an upstream fetch can produce. -/
inductive FetchErr where
  | timeout
  | connReset
  | statusError (code : Nat)
  | parseError
  deriving DecidableEq, Repr

/-- The `err.message` each failure carries in the code. -/
def errMessage : FetchErr → String
  | .timeout => "Request timeout"
  | .connReset => "read ECONNRESET"
  | .statusError c => "NOAA returned " ++ toString c
  | .parseError => "Failed to parse NOAA response"

/-- Whether `pat` occurs at the start of `s`. -/
def startsWithChars : List Char → List Char → Bool
  | [], _ => true
  | _ :: _, [] => false
  | p :: ps, c :: cs => p = c && startsWithChars ps cs

/-- Whether `pat` occurs anywhere in `s`. -/
def containsChars (pat : List Char) : List Char → Bool
  | [] => pat.isEmpty
  | c :: cs => startsWithChars pat (c :: cs) || containsChars pat cs

/-- `String.prototype.includes`. -/
def strIncludes (s pat : String) : Bool := containsChars pat.data s.data

/-- The retry classifier of `fetchWithRetry`:
`err.message.includes('timeout') || err.message.includes('ECONNRESET') ||
err.message.includes('NOAA returned 5')`. -/
def isRetryable (e : FetchErr) : Bool :=
  strIncludes (errMessage e) "timeout" || strIncludes (errMessage e) "ECONNRESET" ||
    strIncludes (errMessage e) "NOAA returned 5"

/-- The retry loop of `fetchWithRetry`.  `pending` lists the outcome each
remaining attempt would produce (the head is the current attempt, the
last element is attempt `retries`), `attempt` is the 1-indexed attempt
counter, `delays` accumulates the backoff waits in milliseconds.  The
result value `none` is the JavaScript `undefined` a zero-attempt loop
falls through to. -/
def retryGo (pending : List (Except FetchErr α)) (attempt : Nat)
    (delays : List Nat) : Option (Except FetchErr α) × List Nat :=
  match pending with
  | [] => (none, delays)
  | o :: rest =>
      match o with
      | .ok r => (some (.ok r), delays)
      | .error e =>
          if rest.isEmpty || !isRetryable e then (some (.error e), delays)
          else retryGo rest (attempt + 1) (delays ++ [2 ^ (attempt - 1) * 1000])

/-- `fetchWithRetry` with `retries = outcomes.length` attempts available,
whose n-th attempt would produce `outcomes[n-1]`. -/
def fetchWithRetry (outcomes : List (Except FetchErr α)) :
    Option (Except FetchErr α) × List Nat :=
  retryGo outcomes 1 []

/-! ## JSON values, `JSON.parse`, and the double-decode of `fetchFromNOAA`

Numbers are modelled as integers (the payloads the claims touch are
integral); strings support the escapes the encoder side ever produces. -/

inductive Json where
  | null
  | bool (b : Bool)
  | num (n : Int)
  | str (s : String)
  | arr (xs : List Json)
  | obj (fields : List (String × Json))

/-- Skip JSON whitespace. -/
def skipWs : List Char → List Char
  | [] => []
  | c :: cs => if c = ' ' ∨ c = '\t' ∨ c = '\n' ∨ c = '\r' then skipWs cs else c :: cs

/-- Parse the body of a string literal after the opening quote, handling
the standard single-character escapes. -/
def parseStringBody (acc : List Char) : List Char → Option (String × List Char)
  | [] => none
  | c :: cs =>
      if c = '"' then some (String.mk acc.reverse, cs)
      else if c = '\\' then
        match cs with
        | [] => none
        | e :: cs2 =>
            if e = '"' then parseStringBody ('"' :: acc) cs2
            else if e = '\\' then parseStringBody ('\\' :: acc) cs2
            else if e = '/' then parseStringBody ('/' :: acc) cs2
            else if e = 'n' then parseStringBody ('\n' :: acc) cs2
            else if e = 't' then parseStringBody ('\t' :: acc) cs2
            else if e = 'r' then parseStringBody ('\r' :: acc) cs2
            else if e = 'b' then parseStringBody ('\x08' :: acc) cs2
            else if e = 'f' then parseStringBody ('\x0c' :: acc) cs2
            else none
      else parseStringBody (c :: acc) cs

def isDigitChar (c : Char) : Bool := '0' ≤ c && c ≤ '9'

/-- Split a leading run of digits off the input. -/
def takeDigits : List Char → List Char × List Char
  | [] => ([], [])
  | c :: cs =>
      if isDigitChar c then
        let (ds, rest) := takeDigits cs
        (c :: ds, rest)
      else ([], c :: cs)

def digitsToNat (acc : Nat) : List Char → Nat
  | [] => acc
  | c :: cs => digitsToNat (acc * 10 + (c.toNat - '0'.toNat)) cs

/-- JSON forbids a leading zero except for the numeral `0` itself. -/
def digitsOk : List Char → Bool
  | [] => false
  | [_] => true
  | c :: _ => !(c = '0')

/-- The mode of the recursive-descent step: a value, the remaining
elements of an array, or the remaining fields of an object. -/
inductive PMode where
  | val
  | elems (acc : List Json)
  | fields (acc : List (String × Json))

/-- One fueled recursive-descent JSON parser covering values, array tails
and object tails.  Fuel only bounds recursion depth; `jsonParse` supplies
enough for its input. -/
def parseStep : Nat → PMode → List Char → Option (Json × List Char)
  | 0, _, _ => none
  | Nat.succ fuel, .val, s =>
      match skipWs s with
      | [] => none
      | c :: cs =>
          if c = 'n' then
            if startsWithChars "ull".data cs then some (.null, cs.drop 3) else none
          else if c = 't' then
            if startsWithChars "rue".data cs then some (.bool true, cs.drop 3) else none
          else if c = 'f' then
            if startsWithChars "alse".data cs then some (.bool false, cs.drop 4) else none
          else if c = '"' then
            (parseStringBody [] cs).map fun sr => (.str sr.1, sr.2)
          else if c = '[' then
            match skipWs cs with
            | ']' :: rest => some (.arr [], rest)
            | cs2 => parseStep fuel (.elems []) cs2
          else if c = '\x7b' then
            match skipWs cs with
            | '\x7d' :: rest => some (.obj [], rest)
            | cs2 => parseStep fuel (.fields []) cs2
          else if c = '-' then
            let (ds, rest) := takeDigits cs
            if digitsOk ds then some (.num (-(digitsToNat 0 ds : Int)), rest) else none
          else if isDigitChar c then
            let (ds, rest) := takeDigits (c :: cs)
            if digitsOk ds then some (.num (digitsToNat 0 ds : Int), rest) else none
          else none
  | Nat.succ fuel, .elems acc, s =>
      match parseStep fuel .val s with
      | none => none
      | some (v, rest) =>
          match skipWs rest with
          | ',' :: r2 => parseStep fuel (.elems (v :: acc)) r2
          | ']' :: r2 => some (.arr (v :: acc).reverse, r2)
          | _ => none
  | Nat.succ fuel, .fields acc, s =>
      match skipWs s with
      | '"' :: cs =>
          match parseStringBody [] cs with
          | none => none
          | some (key, r1) =>
              match skipWs r1 with
              | ':' :: r2 =>
                  match parseStep fuel .val r2 with
                  | none => none
                  | some (v, r3) =>
                      match skipWs r3 with
                      | ',' :: r4 => parseStep fuel (.fields ((key, v) :: acc)) r4
                      | '\x7d' :: r4 => some (.obj ((key, v) :: acc).reverse, r4)
                      | _ => none
              | _ => none
      | _ => none

/-- `JSON.parse`: parse one value and require only whitespace to follow. -/
def jsonParse (s : String) : Option Json :=
  match parseStep (4 * s.data.length + 8) .val s.data with
  | some (v, rest) => if (skipWs rest).isEmpty then some v else none
  | none => none

mutual

/-- The string JavaScript `String(v)` coercion produces, as invoked when
`JSON.parse` receives a non-string argument.  Arrays join their items with
commas (`null` items become empty), objects print as `[object Object]`. -/
def jsToString : Json → String
  | .null => "null"
  | .bool b => if b then "true" else "false"
  | .num n => toString n
  | .str s => s
  | .arr xs => jsJoinItems xs
  | .obj _ => "[object Object]"

/-- `Array.prototype.join(',')` over the coerced items. -/
def jsJoinItems : List Json → String
  | [] => ""
  | [.null] => ""
  | [v] => jsToString v
  | .null :: vs => "," ++ jsJoinItems vs
  | v :: vs => jsToString v ++ "," ++ jsJoinItems vs

end

/-- The response-body parsing of `fetchFromNOAA`:
`try { parsed = JSON.parse(JSON.parse(data)) } catch { parsed = JSON.parse(data) }`
wrapped in a try/catch that rejects with the parse failure.  A non-string
result of the inner parse is coerced to a string by the outer `JSON.parse`,
exactly as JavaScript does. -/
def noaaParse (data : String) : Except FetchErr Json :=
  match jsonParse data with
  | none => .error .parseError
  | some v =>
      let second :=
        match v with
        | .str s => jsonParse s
        | w => jsonParse (jsToString w)
      match second with
      | some w => .ok w
      | none => .ok v

/-- `fetchFromNOAA` once the transport has delivered a status and body:
non-200 rejects with the status error, a 200 body goes through the
double-tolerant parse. -/
def fetchFromNOAA (statusCode : Nat) (body : String) : Except FetchErr Json :=
  if statusCode ≠ 200 then .error (.statusError statusCode) else noaaParse body

/-! ## The `GET /api/sref/:station/:run/:param` handler -/

/-- An ASCII letter, as matched by `[A-Za-z]`. -/
def isAsciiLetter (c : Char) : Prop :=
  ('A' ≤ c ∧ c ≤ 'Z') ∨ ('a' ≤ c ∧ c ≤ 'z')

instance (c : Char) : Decidable (isAsciiLetter c) := by
  unfold isAsciiLetter; infer_instance

/-- The station pattern `/^[A-Za-z]{3,4}$/`. -/
def validStation (s : String) : Prop :=
  (3 ≤ s.length ∧ s.length ≤ 4) ∧ ∀ c ∈ s.data, isAsciiLetter c

instance (s : String) : Decidable (validStation s) := by
  unfold validStation; infer_instance

def validRuns : List String := ["03", "09", "15", "21"]

def validParams : List String :=
  ["Total-SNO", "3hrly-SNO", "Total-QPF", "3hrly-QPF", "3hrly-TMP", "3h-10mWND"]

/-- The cache key: `` `${date}_${run}_${station}_${param}` ``. -/
def cacheKey (date run station param : String) : String :=
  date ++ "_" ++ run ++ "_" ++ station ++ "_" ++ param

/-- The response the handler sends back. -/
inductive HandlerResp where
  | badRequest (msg : String)
  | rateLimited
  | success (body : Processed) (xCache : String)
  | badGateway
  deriving Repr

/-- The shared mutable state the handler touches. -/
structure ServerState where
  cache : Cache Processed
  buckets : List (String × Bucket)
  deriving Repr

/-- The `GET /api/sref` handler of the persistent-cache server: validate,
look the key up (cache hits skip admission), admission-check on a miss,
then fetch, process, and cache only complete results.  The outcome the
retry-wrapped upstream fetch would deliver is the `fetchResult` oracle. -/
def handleSref (st : ServerState) (station run param date ip : String)
    (now : Nat) (fetchResult : Except FetchErr Raw) :
    HandlerResp × ServerState :=
  if ¬ validStation station then (.badRequest "Invalid station format", st)
  else if run ∉ validRuns then (.badRequest "Invalid run time", st)
  else if param ∉ validParams then (.badRequest "Invalid parameter", st)
  else
    let key := cacheKey date run station param
    let (cached, cache2) := getFromCache st.cache key now
    match cached with
    | some data => (.success data "HIT", ⟨cache2, st.buckets⟩)
    | none =>
        let (allowed, buckets2) := checkApiRateLimit st.buckets ip now
        if ¬ allowed then (.rateLimited, ⟨cache2, buckets2⟩)
        else
          match fetchResult with
          | .error _ => (.badGateway, ⟨cache2, buckets2⟩)
          | .ok raw =>
              let processed := processData raw
              if 10 ≤ memberCount processed then
                (.success processed "MISS", ⟨setInCache cache2 key processed now, buckets2⟩)
              else
                (.success processed "INCOMPLETE", ⟨cache2, buckets2⟩)

/-! ## Helper lemmas about the Map model -/

theorem alGet_cons (p : String × α) (rest : List (String × α)) (k : String) :
    alGet (p :: rest) k = if p.1 = k then some p.2 else alGet rest k := by
  by_cases h : p.1 = k <;> simp [alGet, List.find?, h]

theorem alSet_cons (p : String × α) (rest : List (String × α)) (k : String) (v : α) :
    alSet (p :: rest) k v = if p.1 = k then (k, v) :: rest else p :: alSet rest k v := rfl

theorem alKeys_cons (p : String × α) (rest : List (String × α)) :
    alKeys (p :: rest) = p.1 :: alKeys rest := rfl

theorem nodupKeys_cons (p : String × α) (rest : List (String × α)) :
    NodupKeys (p :: rest) ↔ p.1 ∉ alKeys rest ∧ NodupKeys rest := by
  simp [NodupKeys, alKeys_cons, List.nodup_cons]

theorem alGet_alSet_self (l : List (String × α)) (k : String) (v : α) :
    alGet (alSet l k v) k = some v := by
  induction l with
  | nil => simp [alSet, alGet_cons]
  | cons p rest ih =>
      rw [alSet_cons]
      by_cases h : p.1 = k
      · simp [h, alGet_cons]
      · simp [h, alGet_cons, ih]

theorem alGet_alSet_ne (l : List (String × α)) (k k2 : String) (v : α)
    (h : k ≠ k2) : alGet (alSet l k v) k2 = alGet l k2 := by
  induction l with
  | nil => simp [alSet, alGet_cons, h]
  | cons p rest ih =>
      rw [alSet_cons]
      by_cases hp : p.1 = k
      · rw [if_pos hp, alGet_cons, alGet_cons, if_neg h, if_neg (hp ▸ h)]
      · rw [if_neg hp, alGet_cons, alGet_cons, ih]

theorem alGet_eq_none_iff (l : List (String × α)) (k : String) :
    alGet l k = none ↔ k ∉ alKeys l := by
  induction l with
  | nil => simp [alGet, alKeys]
  | cons p rest ih =>
      rw [alGet_cons, alKeys_cons]
      by_cases h : p.1 = k
      · simp [h]
      · simp [h, ih, Ne.symm h]

theorem alKeys_alSet (l : List (String × α)) (k : String) (v : α) :
    alKeys (alSet l k v) = if k ∈ alKeys l then alKeys l else alKeys l ++ [k] := by
  induction l with
  | nil => simp [alSet, alKeys]
  | cons p rest ih =>
      rw [alSet_cons]
      by_cases h : p.1 = k
      · subst h
        simp [alSet_cons, alKeys_cons]
      · rw [if_neg h, alKeys_cons, ih, alKeys_cons]
        by_cases hm : k ∈ alKeys rest
        · rw [if_pos hm, if_pos (List.mem_cons_of_mem _ hm)]
        · rw [if_neg hm, if_neg (by
            simp only [List.mem_cons]
            rintro (hc | hc)
            · exact h hc.symm
            · exact hm hc)]
          rfl

theorem length_alSet (l : List (String × α)) (k : String) (v : α) :
    (alSet l k v).length = if k ∈ alKeys l then l.length else l.length + 1 := by
  have h := congrArg List.length (alKeys_alSet l k v)
  have h1 : (alKeys (alSet l k v)).length = (alSet l k v).length := List.length_map _ _
  have h2 : (alKeys l).length = l.length := List.length_map _ _
  by_cases hm : k ∈ alKeys l
  · rw [if_pos hm] at h
    rw [if_pos hm, ← h2, ← h, h1]
  · rw [if_neg hm] at h
    rw [if_neg hm, ← h1, h]
    simp [h2]

theorem nodupKeys_alSet (l : List (String × α)) (k : String) (v : α)
    (h : NodupKeys l) : NodupKeys (alSet l k v) := by
  unfold NodupKeys
  rw [alKeys_alSet]
  by_cases hm : k ∈ alKeys l
  · simpa [hm] using h
  · rw [if_neg hm]
    exact List.Nodup.append h (List.nodup_singleton k)
      fun a ha hk => hm ((List.mem_singleton.mp hk) ▸ ha)

theorem alDelete_eq_filter (l : List (String × α)) (k : String) :
    alDelete l k = l.filter fun p => decide (p.1 ≠ k) := rfl

theorem alKeys_filter (l : List (String × α)) (q : String → Bool) :
    alKeys (l.filter fun p => q p.1) = (alKeys l).filter q := by
  induction l with
  | nil => rfl
  | cons p rest ih =>
      rw [List.filter_cons, alKeys_cons, List.filter_cons]
      by_cases h : q p.1
      · rw [if_pos h, if_pos h, alKeys_cons, ih]
      · rw [if_neg h, if_neg h, ih]

theorem nodupKeys_filter (l : List (String × α)) (q : (String × α) → Bool)
    (h : NodupKeys l) : NodupKeys (l.filter q) := by
  unfold NodupKeys at h ⊢
  induction l with
  | nil => simp [alKeys]
  | cons p rest ih =>
      rw [alKeys_cons, List.nodup_cons] at h
      rw [List.filter_cons]
      by_cases hq : q p
      · rw [if_pos hq, alKeys_cons, List.nodup_cons]
        refine ⟨fun hc => h.1 ?_, ih h.2⟩
        rcases List.mem_map.mp hc with ⟨b, hb, hb2⟩
        exact hb2 ▸ List.mem_map_of_mem _ (List.mem_of_mem_filter hb)
      · rw [if_neg hq]
        exact ih h.2

theorem alGet_alDelete_self (l : List (String × α)) (k : String) :
    alGet (alDelete l k) k = none := by
  induction l with
  | nil => rfl
  | cons p rest ih =>
      rw [alDelete_eq_filter, List.filter_cons]
      by_cases hp : p.1 = k
      · rw [if_neg (by simp [hp]), ← alDelete_eq_filter]
        exact ih
      · rw [if_pos (by simp [hp]), alGet_cons, if_neg hp, ← alDelete_eq_filter]
        exact ih

theorem alGet_alDelete_ne (l : List (String × α)) (k k2 : String)
    (h : k2 ≠ k) : alGet (alDelete l k) k2 = alGet l k2 := by
  induction l with
  | nil => rfl
  | cons p rest ih =>
      rw [alDelete_eq_filter, List.filter_cons]
      by_cases hp : p.1 = k
      · rw [if_neg (by simp [hp]), ← alDelete_eq_filter, ih, alGet_cons,
          if_neg fun hc => h (by rw [← hc]; exact hp)]
      · rw [if_pos (by simp [hp]), alGet_cons, alGet_cons, ← alDelete_eq_filter, ih]

theorem length_alDelete_of_mem (l : List (String × α)) (k : String)
    (hd : NodupKeys l) (hm : k ∈ alKeys l) :
    (alDelete l k).length = l.length - 1 := by
  induction l with
  | nil => simp [alKeys] at hm
  | cons p rest ih =>
      rw [alKeys_cons, List.mem_cons] at hm
      rw [nodupKeys_cons] at hd
      rw [alDelete_eq_filter, List.filter_cons]
      by_cases hp : p.1 = k
      · rw [if_neg (by simp [hp])]
        have hrest : rest.filter (fun q => decide (q.1 ≠ k)) = rest := by
          apply List.filter_eq_self.mpr
          intro q hq
          have hqk : q.1 ≠ k := by
            intro hc
            apply hd.1
            rw [hp, ← hc]
            exact List.mem_map_of_mem _ hq
          simpa using hqk
        rw [hrest]
        simp
      · have hmr : k ∈ alKeys rest := by
          rcases hm with hm | hm
          · exact absurd hm.symm hp
          · exact hm
        have hlen := ih hd.2 hmr
        rw [alDelete_eq_filter] at hlen
        have hpos : 1 ≤ rest.length := by
          rcases rest with _ | ⟨q, rest2⟩
          · simp [alKeys] at hmr
          · simp
        rw [if_pos (by simp [hp])]
        simp only [List.length_cons, hlen]
        omega

theorem nodupKeys_entry_unique (l : List (String × α)) (hd : NodupKeys l)
    (p q : String × α) (hp : p ∈ l) (hq : q ∈ l) (hk : p.1 = q.1) : p = q := by
  induction l with
  | nil => cases hp
  | cons a rest ih =>
      rw [nodupKeys_cons] at hd
      rcases List.mem_cons.mp hp with rfl | hp2 <;> rcases List.mem_cons.mp hq with rfl | hq2
      · rfl
      · refine absurd ?_ hd.1
        rw [hk]
        exact List.mem_map_of_mem _ hq2
      · refine absurd ?_ hd.1
        rw [← hk]
        exact List.mem_map_of_mem _ hp2
      · exact ih hd.2 hp2 hq2


/-! ## Claim C1: cache-key normalization -/

theorem isAsciiLetter_ne_underscore (c : Char) (h : isAsciiLetter c) : c ≠ '_' := by
  rintro rfl
  revert h
  decide

theorem validRun_no_underscore (r : String) (h : r ∈ validRuns) : ∀ c ∈ r.data, c ≠ '_' := by
  simp only [validRuns, List.mem_cons, List.not_mem_nil, or_false] at h
  rcases h with rfl | rfl | rfl | rfl <;> decide

theorem validParam_no_underscore (p : String) (h : p ∈ validParams) :
    ∀ c ∈ p.data, c ≠ '_' := by
  simp only [validParams, List.mem_cons, List.not_mem_nil, or_false] at h
  rcases h with rfl | rfl | rfl | rfl | rfl | rfl <;> decide

theorem validStation_no_underscore (s : String) (h : validStation s) :
    ∀ c ∈ s.data, c ≠ '_' :=
  fun c hc => isAsciiLetter_ne_underscore c (h.2 c hc)

/-- Cancellation around a separator character that occurs in neither prefix. -/
theorem append_sep_inj (c : Char) :
    ∀ (xs ys u v : List Char), (∀ a ∈ xs, a ≠ c) → (∀ a ∈ ys, a ≠ c) →
      xs ++ c :: u = ys ++ c :: v → xs = ys ∧ u = v := by
  intro xs
  induction xs with
  | nil =>
      intro ys u v _ hys h
      cases ys with
      | nil => simpa using h
      | cons y ts =>
          simp only [List.nil_append, List.cons_append, List.cons.injEq] at h
          exact absurd h.1 (Ne.symm (hys y (List.mem_cons_self y ts)))
  | cons x xs ih =>
      intro ys u v hxs hys h
      cases ys with
      | nil =>
          simp only [List.nil_append, List.cons_append, List.cons.injEq] at h
          exact absurd h.1 (hxs x (List.mem_cons_self x xs))
      | cons y ts =>
          simp only [List.cons_append, List.cons.injEq] at h
          obtain ⟨h1, h2⟩ := h
          obtain ⟨hx, hu⟩ := ih ts u v (fun a ha => hxs a (List.mem_cons_of_mem x ha))
            (fun a ha => hys a (List.mem_cons_of_mem y ha)) h2
          exact ⟨by rw [h1, hx], hu⟩

theorem cacheKey_data (date run station param : String) :
    (cacheKey date run station param).data =
      date.data ++ '_' :: (run.data ++ '_' :: (station.data ++ '_' :: param.data)) := by
  simp [cacheKey, String.data_append]

theorem cacheKey_data_reverse (date run station param : String) :
    (cacheKey date run station param).data.reverse =
      param.data.reverse ++ '_' :: (station.data.reverse ++ '_' ::
        (run.data.reverse ++ '_' :: date.data.reverse)) := by
  rw [cacheKey_data]
  simp [List.reverse_append]

/-- Claim C1 (amended): with the fields the handler admits (runs and
parameters from the fixed lists, stations matching the letter pattern —
none of which contain an underscore), two requests produce the same cache
key exactly when all four fields are equal as literal strings; in
particular the station enters the key case-sensitively. -/
theorem cacheKey_eq_iff_fields_eq
    (d d2 r r2 s s2 p p2 : String)
    (hr : r ∈ validRuns) (hr2 : r2 ∈ validRuns)
    (hs : validStation s) (hs2 : validStation s2)
    (hp : p ∈ validParams) (hp2 : p2 ∈ validParams) :
    cacheKey d r s p = cacheKey d2 r2 s2 p2 ↔ (d = d2 ∧ r = r2 ∧ s = s2 ∧ p = p2) := by
  constructor
  · intro h
    have hdata := congrArg String.data h
    have hrev := congrArg List.reverse hdata
    rw [cacheKey_data_reverse, cacheKey_data_reverse] at hrev
    have hpf : ∀ a ∈ p.data.reverse, a ≠ '_' := by
      intro a ha
      exact validParam_no_underscore p hp a (List.mem_reverse.mp ha)
    have hpf2 : ∀ a ∈ p2.data.reverse, a ≠ '_' := by
      intro a ha
      exact validParam_no_underscore p2 hp2 a (List.mem_reverse.mp ha)
    obtain ⟨hpe, hrest⟩ := append_sep_inj '_' _ _ _ _ hpf hpf2 hrev
    have hsf : ∀ a ∈ s.data.reverse, a ≠ '_' := by
      intro a ha
      exact validStation_no_underscore s hs a (List.mem_reverse.mp ha)
    have hsf2 : ∀ a ∈ s2.data.reverse, a ≠ '_' := by
      intro a ha
      exact validStation_no_underscore s2 hs2 a (List.mem_reverse.mp ha)
    obtain ⟨hse, hrest2⟩ := append_sep_inj '_' _ _ _ _ hsf hsf2 hrest
    have hrf : ∀ a ∈ r.data.reverse, a ≠ '_' := by
      intro a ha
      exact validRun_no_underscore r hr a (List.mem_reverse.mp ha)
    have hrf2 : ∀ a ∈ r2.data.reverse, a ≠ '_' := by
      intro a ha
      exact validRun_no_underscore r2 hr2 a (List.mem_reverse.mp ha)
    obtain ⟨hre, hde⟩ := append_sep_inj '_' _ _ _ _ hrf hrf2 hrest2
    refine ⟨?_, ?_, ?_, ?_⟩
    · exact String.ext (List.reverse_injective hde)
    · exact String.ext (List.reverse_injective hre)
    · exact String.ext (List.reverse_injective hse)
    · exact String.ext (List.reverse_injective hpe)
  · rintro ⟨rfl, rfl, rfl, rfl⟩
    rfl

/-- Witness instantiating the amended C1 key lemma: equal fields give equal
keys, and the case-differing stations `jfk` and `JFK` give distinct keys. -/
theorem cacheKey_eq_iff_fields_eq_witness :
    ("03" : String) ∈ validRuns ∧ validStation "jfk" ∧ validStation "JFK" ∧
      ("Total-QPF" : String) ∈ validParams ∧
      ¬ (cacheKey "2025-01-01" "03" "jfk" "Total-QPF" =
          cacheKey "2025-01-01" "03" "JFK" "Total-QPF") := by
  refine ⟨by decide, by decide, by decide, by decide, ?_⟩
  intro h
  have := (cacheKey_eq_iff_fields_eq "2025-01-01" "2025-01-01" "03" "03" "jfk" "JFK"
    "Total-QPF" "Total-QPF" (by decide) (by decide) (by decide) (by decide)
    (by decide) (by decide)).mp h
  have hs := this.2.2.1
  exact absurd hs (by decide)

/-- Claim C1 is false on the code: the station is upper-cased only for the
upstream dispatch, not in the cache key, so two requests equal up to
station letter case produce different cache keys and do not share a cache
entry. -/
theorem cacheKey_case_cex :
    validStation "jfk" ∧ validStation "JFK" ∧
      cacheKey "2025-01-01" "03" "jfk" "Total-QPF" ≠
        cacheKey "2025-01-01" "03" "JFK" "Total-QPF" := by
  decide

/-! ## Claim C2: TTL policy -/

/-- Claim C2 is false on the code: at 20:00 UTC, for a fetch of the 03Z
run, the next scheduled run after `now` is 21Z, whose estimate sits 3
hours away, but `getCacheTTL` works from the run following 03Z in the
cycle (09Z) and returns the 8-hour ceiling instead. -/
theorem getCacheTTL_spec_cex :
    getCacheTTL 3 72000000 ≠ specClaimTTL 72000000 ∧
      getCacheTTL 3 72000000 = 8 * 3600000 ∧ specClaimTTL 72000000 = 3 * 3600000 := by
  decide

/-- Claim C2 (amended): for each of the four runs, `getCacheTTL` equals
the time from the current UTC hour to the run that follows the fetched run
in the daily cycle plus the 2-hour processing margin, clamped to the
interval from 1 hour to 8 hours; the result always lies in that interval
and depends on the clock only through the current UTC hour. -/
theorem getCacheTTL_cyclic_next_clamped (runHour : Nat) (hrun : runHour ∈ modelRuns)
    (now : Nat) :
    getCacheTTL runHour now = specAmendedTTL runHour now ∧
      3600000 ≤ getCacheTTL runHour now ∧ getCacheTTL runHour now ≤ 8 * 3600000 ∧
      ∀ now2, getUTCHours now2 = getUTCHours now →
        getCacheTTL runHour now2 = getCacheTTL runHour now := by
  have hh : getUTCHours now < 24 := Nat.mod_lt _ (by norm_num)
  simp only [modelRuns, List.mem_cons, List.not_mem_nil, or_false] at hrun
  have key : getCacheTTL runHour now = specAmendedTTL runHour now ∧
      3600000 ≤ getCacheTTL runHour now ∧ getCacheTTL runHour now ≤ 8 * 3600000 := by
    unfold getCacheTTL specAmendedTTL
    revert hh
    generalize getUTCHours now = h
    intro hh
    rcases hrun with rfl | rfl | rfl | rfl <;> (interval_cases h <;> decide)
  exact ⟨key.1, key.2.1, key.2.2, fun now2 h2 => by unfold getCacheTTL; rw [h2]⟩

/-- Witness instantiating the amended TTL lemma at the 03Z run and a
midnight clock. -/
theorem getCacheTTL_cyclic_next_clamped_witness :
    (3 : Nat) ∈ modelRuns ∧
      (getCacheTTL 3 0 = specAmendedTTL 3 0 ∧
        3600000 ≤ getCacheTTL 3 0 ∧ getCacheTTL 3 0 ≤ 8 * 3600000 ∧
        ∀ now2, getUTCHours now2 = getUTCHours 0 →
          getCacheTTL 3 now2 = getCacheTTL 3 0) :=
  ⟨by decide, getCacheTTL_cyclic_next_clamped 3 (by decide) 0⟩


/-! ## Claim C6: lazy expiry on read -/

/-- Claim C6: looking up a key whose stored entry has expired strictly in
the past reports a miss AND removes the entry, so the store shrinks by one
and the entry is truly gone afterwards. -/
theorem getFromCache_lazy_expiry (cache : Cache α) (key : String) (now : Nat)
    (item : CacheEntry α) (hd : NodupKeys cache)
    (hfound : alGet cache key = some item) (hexp : item.expiry < now) :
    getFromCache cache key now = (none, alDelete cache key) ∧
      (alDelete cache key).length = cache.length - 1 ∧
      alGet (alDelete cache key) key = none := by
  have hmem : key ∈ alKeys cache := by
    by_contra hc
    rw [← alGet_eq_none_iff] at hc
    rw [hc] at hfound
    cases hfound
  refine ⟨?_, length_alDelete_of_mem cache key hd hmem, alGet_alDelete_self cache key⟩
  unfold getFromCache
  rw [hfound]
  simp [hexp]

/-- Witness for the lazy-expiry theorem on a one-entry store. -/
theorem getFromCache_lazy_expiry_witness :
    NodupKeys ([("k", ⟨0, 5, 1⟩)] : Cache Nat) ∧
      alGet ([("k", ⟨0, 5, 1⟩)] : Cache Nat) "k" = some ⟨0, 5, 1⟩ ∧ (5 : Nat) < 7 ∧
      (getFromCache ([("k", ⟨0, 5, 1⟩)] : Cache Nat) "k" 7 =
          (none, alDelete ([("k", ⟨0, 5, 1⟩)] : Cache Nat) "k") ∧
        (alDelete ([("k", ⟨0, 5, 1⟩)] : Cache Nat) "k").length = 0 ∧
        alGet (alDelete ([("k", ⟨0, 5, 1⟩)] : Cache Nat) "k") "k" = none) := by
  refine ⟨by decide, by decide, by decide, ?_⟩
  have h := getFromCache_lazy_expiry ([("k", ⟨0, 5, 1⟩)] : Cache Nat) "k" 7 ⟨0, 5, 1⟩
    (by decide) (by decide) (by decide)
  exact ⟨h.1, by simpa using h.2.1, h.2.2⟩

/-! ## Claim C10: sub-second call trains starve the bucket -/

/-- One sub-second step adds no tokens while still advancing `lastRefill`,
so the bucket only ever loses tokens. -/
theorem bucketStep_subsecond (b : Bucket) (now : Nat)
    (hcap : b.tokens ≤ BUCKET_MAX)
    (h1 : b.lastRefill ≤ now) (h2 : now < b.lastRefill + 1000) :
    bucketStep b now =
      (decide (0 < b.tokens), ⟨b.tokens - (if 0 < b.tokens then 1 else 0), now⟩) := by
  have hz : (now - b.lastRefill) / 1000 = 0 := by omega
  have hmin : min BUCKET_MAX (b.tokens + (now - b.lastRefill) / 1000 * 1) = b.tokens := by
    rw [hz]
    unfold BUCKET_MAX at hcap ⊢
    omega
  unfold bucketStep REFILL_INTERVAL REFILL_RATE
  simp only [hmin]
  by_cases hp : 0 < b.tokens <;> simp [hp]

/-- Claim C10: under a train of calls whose consecutive gaps are all below
one second (the first gap measured from the stored `lastRefill`), floor
truncation adds zero tokens at every step while `lastRefill` still
advances; the token count therefore never increases, the first
`min tokens n` calls are permitted, every later call is denied no matter
how much total time has elapsed, and the final count is the starting count
minus the permits granted. -/
theorem tokenBucket_subsecond_depletion (b : Bucket) (ts : List Nat)
    (hcap : b.tokens ≤ BUCKET_MAX) (hchain : SubSecondChain b.lastRefill ts) :
    (runCalls b ts).2 =
        List.replicate (min b.tokens ts.length) true ++
          List.replicate (ts.length - min b.tokens ts.length) false ∧
      (runCalls b ts).1.tokens = b.tokens - min b.tokens ts.length := by
  induction ts generalizing b with
  | nil => simp [runCalls]
  | cons t rest ih =>
      obtain ⟨⟨hle, hlt⟩, hchain2⟩ := hchain
      have hstep := bucketStep_subsecond b t hcap hle hlt
      by_cases hp : 0 < b.tokens
      · have hb2 : bucketStep b t = (true, ⟨b.tokens - 1, t⟩) := by
          rw [hstep]
          simp [hp]
        have ihr := ih ⟨b.tokens - 1, t⟩ (by simp; omega) hchain2
        unfold runCalls
        rw [hb2]
        simp only [List.length_cons] at ihr ⊢
        rw [ihr.1, ihr.2]
        have hm : min b.tokens (rest.length + 1) = min (b.tokens - 1) rest.length + 1 := by
          omega
        have hsub : rest.length + 1 - (min (b.tokens - 1) rest.length + 1) =
            rest.length - min (b.tokens - 1) rest.length := by
          omega
        rw [hm, hsub, List.replicate_succ]
        exact ⟨rfl, by omega⟩
      · have hz : b.tokens = 0 := by omega
        have hb2 : bucketStep b t = (false, ⟨b.tokens, t⟩) := by
          rw [hstep]
          simp [hp, hz]
        have ihr := ih ⟨b.tokens, t⟩ hcap hchain2
        unfold runCalls
        rw [hb2]
        simp only [List.length_cons] at ihr ⊢
        rw [ihr.1, ihr.2, hz]
        have h0 : min 0 rest.length = 0 := by omega
        have h1 : min 0 (rest.length + 1) = 0 := by omega
        rw [h0, h1]
        simp [List.replicate_succ]

/-- Witness: a bucket with 2 tokens hit 4 times at sub-second gaps permits
twice, then denies, and ends empty. -/
theorem tokenBucket_subsecond_depletion_witness :
    (2 : Nat) ≤ BUCKET_MAX ∧ SubSecondChain 0 [100, 800, 1500, 2300] ∧
      ((runCalls ⟨2, 0⟩ [100, 800, 1500, 2300]).2 =
          List.replicate (min 2 4) true ++ List.replicate (4 - min 2 4) false ∧
        (runCalls ⟨2, 0⟩ [100, 800, 1500, 2300]).1.tokens = 2 - min 2 4) := by
  refine ⟨by decide, ?_, ?_⟩
  · show (0 ≤ 100 ∧ 100 < 1000) ∧ (100 ≤ 800 ∧ 800 < 1100) ∧ (800 ≤ 1500 ∧ 1500 < 1800) ∧
      (1500 ≤ 2300 ∧ 2300 < 2500) ∧ True
    decide
  · exact tokenBucket_subsecond_depletion ⟨2, 0⟩ [100, 800, 1500, 2300] (by decide)
      (by show (0 ≤ 100 ∧ 100 < 1000) ∧ (100 ≤ 800 ∧ 800 < 1100) ∧ (800 ≤ 1500 ∧ 1500 < 1800) ∧
        (1500 ≤ 2300 ∧ 2300 < 2500) ∧ True; decide)


/-! ## Claim C7: retry policy -/

theorem isRetryable_timeout : isRetryable .timeout = true := by decide

theorem isRetryable_connReset : isRetryable .connReset = true := by decide

theorem isRetryable_parseError : isRetryable .parseError = false := by decide

set_option maxHeartbeats 1000000 in
set_option maxRecDepth 100000 in
/-- Over the three-digit HTTP status range, the message test
`includes('NOAA returned 5')` holds exactly for the 5xx codes. -/
theorem isRetryable_statusError (c : Nat) (h1 : 100 ≤ c) (h2 : c < 1000) :
    isRetryable (.statusError c) = decide (500 ≤ c ∧ c < 600) := by
  revert h1
  revert h2
  revert c
  decide

/-- Claim C7: with three attempts available, a non-transient failure on
attempt 1 is surfaced at once with no backoff; transient failures are
retried with waits of 1s and then 2s; a success after transient failures
is returned; exhaustion surfaces the final error unchanged; and the
classifier marks exactly timeouts, connection resets and 5xx status
errors as transient. -/
theorem fetchWithRetry_policy :
    (∀ (e : FetchErr) (o2 o3 : Except FetchErr Raw), isRetryable e = false →
        fetchWithRetry [.error e, o2, o3] = (some (.error e), [])) ∧
      (∀ (e : FetchErr) (r : Raw) (o3 : Except FetchErr Raw), isRetryable e = true →
        fetchWithRetry [.error e, .ok r, o3] = (some (.ok r), [1000])) ∧
      (∀ (e1 e2 : FetchErr) (r : Raw), isRetryable e1 = true → isRetryable e2 = true →
        fetchWithRetry [.error e1, .error e2, .ok r] = (some (.ok r), [1000, 2000])) ∧
      (∀ (e1 e2 : FetchErr) (o3 : Except FetchErr Raw), isRetryable e1 = true →
        isRetryable e2 = false →
        fetchWithRetry [.error e1, .error e2, o3] = (some (.error e2), [1000])) ∧
      (∀ (e1 e2 e3 : FetchErr), isRetryable e1 = true → isRetryable e2 = true →
        fetchWithRetry ([.error e1, .error e2, .error e3] : List (Except FetchErr Raw)) =
          (some (.error e3), [1000, 2000])) ∧
      (∀ (r : Raw) (o2 o3 : Except FetchErr Raw),
        fetchWithRetry [.ok r, o2, o3] = (some (.ok r), [])) := by
  refine ⟨?_, ?_, ?_, ?_, ?_, ?_⟩
  · intro e o2 o3 he
    simp [fetchWithRetry, retryGo, he]
  · intro e r o3 he
    simp [fetchWithRetry, retryGo, he]
  · intro e1 e2 r he1 he2
    simp [fetchWithRetry, retryGo, he1, he2]
  · intro e1 e2 o3 he1 he2
    simp [fetchWithRetry, retryGo, he1, he2]
  · intro e1 e2 e3 he1 he2
    simp [fetchWithRetry, retryGo, he1, he2]
  · intro r o2 o3
    simp [fetchWithRetry, retryGo]

/-- Witness running the spec test vector
`[Timeout, UpstreamStatusError 503, success]` (success on the third
attempt after 1s + 2s of backoff) and a 404 on attempt 1 (immediate
failure, no second attempt). -/
theorem fetchWithRetry_policy_witness :
    isRetryable .timeout = true ∧ isRetryable (.statusError 503) = true ∧
      isRetryable (.statusError 404) = false ∧
      fetchWithRetry [.error .timeout, .error (.statusError 503), .ok ([] : Raw)] =
        (some (.ok []), [1000, 2000]) ∧
      fetchWithRetry [.error (.statusError 404), .error .timeout, .ok ([] : Raw)] =
        (some (.error (.statusError 404)), []) := by
  refine ⟨by decide, by decide, by decide, ?_, ?_⟩
  · exact fetchWithRetry_policy.2.2.1 .timeout (.statusError 503) [] (by decide) (by decide)
  · exact fetchWithRetry_policy.1 (.statusError 404) (.error .timeout) (.ok []) (by decide)


/-! ## Claims C3 and C8: handler short-circuiting and the incomplete path -/

/-- What a miss lookup leaves behind: the key is absent afterwards, the
cache only ever shrank (lazy expiry), other keys are untouched, and a
lookup of a key that was absent changes nothing. -/
theorem getFromCache_miss_state (c : Cache α) (k : String) (now : Nat)
    (h : (getFromCache c k now).1 = none) :
    alGet (getFromCache c k now).2 k = none ∧
      List.Sublist (getFromCache c k now).2 c ∧
      (∀ k2, k2 ≠ k → alGet (getFromCache c k now).2 k2 = alGet c k2) ∧
      (alGet c k = none → (getFromCache c k now).2 = c) := by
  cases halget : alGet c k with
  | none =>
      have hgf : getFromCache c k now = (none, c) := by
        unfold getFromCache
        rw [halget]
      rw [hgf]
      exact ⟨halget, List.Sublist.refl c, fun _ _ => rfl, fun _ => rfl⟩
  | some item =>
      by_cases hexp : item.expiry < now
      · have hgf : getFromCache c k now = (none, alDelete c k) := by
          unfold getFromCache
          rw [halget]
          simp only [if_pos hexp]
        rw [hgf]
        refine ⟨alGet_alDelete_self c k, ?_, fun k2 hk2 => alGet_alDelete_ne c k k2 hk2, ?_⟩
        · rw [alDelete_eq_filter]
          exact List.filter_sublist c
        · intro hc
          exact absurd hc (by simp)
      · have hgf : getFromCache c k now = (some item.data, c) := by
          unfold getFromCache
          rw [halget]
          simp only [if_neg hexp]
        rw [hgf] at h
        simp at h

/-- Claim C3 is false on the code: a request denied by the admission
controller has already performed the cache lookup, and that lookup can
mutate the store by lazily deleting an expired entry — here the store
shrinks from one entry to none while the response is the 429. -/
theorem rateLimited_cache_mutation_cex :
    (handleSref ⟨[(cacheKey "2025-01-01" "03" "JFK" "Total-QPF", ⟨[], 50, 10⟩)],
          [("1.2.3.4", ⟨0, 100⟩)]⟩
        "JFK" "03" "Total-QPF" "2025-01-01" "1.2.3.4" 100 (.ok [])).1 = .rateLimited ∧
      (handleSref ⟨[(cacheKey "2025-01-01" "03" "JFK" "Total-QPF", ⟨[], 50, 10⟩)],
          [("1.2.3.4", ⟨0, 100⟩)]⟩
        "JFK" "03" "Total-QPF" "2025-01-01" "1.2.3.4" 100 (.ok [])).2.cache = [] := by
  constructor
  · rfl
  · rfl

/-- Claim C3 (amended): a request that fails validation is rejected with
the state untouched and without consulting the fetch oracle; a request
that passes validation, misses the cache and is denied admission is
rejected without consulting the fetch oracle and without any cache write —
its only cache effect is the lookup itself, which can lazily delete an
expired entry at the requested key (other keys are untouched, and when the
key was absent the cache is exactly unchanged). -/
theorem handler_shortCircuit_amended (st : ServerState)
    (station run param date ip : String) (now : Nat)
    (fr : Except FetchErr Raw) :
    ((¬ validStation station ∨ run ∉ validRuns ∨ param ∉ validParams) →
      (handleSref st station run param date ip now fr).2 = st ∧
        (∃ msg, (handleSref st station run param date ip now fr).1 = .badRequest msg) ∧
        ∀ fr2, handleSref st station run param date ip now fr2 =
          handleSref st station run param date ip now fr) ∧
    (validStation station → run ∈ validRuns → param ∈ validParams →
      (getFromCache st.cache (cacheKey date run station param) now).1 = none →
      (checkApiRateLimit st.buckets ip now).1 = false →
      (handleSref st station run param date ip now fr =
          (.rateLimited, ⟨(getFromCache st.cache (cacheKey date run station param) now).2,
            (checkApiRateLimit st.buckets ip now).2⟩)) ∧
        alGet (handleSref st station run param date ip now fr).2.cache
          (cacheKey date run station param) = none ∧
        List.Sublist (handleSref st station run param date ip now fr).2.cache st.cache ∧
        (∀ k2, k2 ≠ cacheKey date run station param →
          alGet (handleSref st station run param date ip now fr).2.cache k2 =
            alGet st.cache k2) ∧
        (alGet st.cache (cacheKey date run station param) = none →
          (handleSref st station run param date ip now fr).2.cache = st.cache) ∧
        ∀ fr2, handleSref st station run param date ip now fr2 =
          handleSref st station run param date ip now fr) := by
  constructor
  · intro hbad
    by_cases hv : validStation station
    · by_cases hr : run ∈ validRuns
      · have hp : param ∉ validParams := by
          rcases hbad with h | h | h
          · exact absurd hv h
          · exact absurd hr h
          · exact h
        have hall : ∀ fr2 : Except FetchErr Raw,
            handleSref st station run param date ip now fr2 =
              (.badRequest "Invalid parameter", st) := fun fr2 => by
          unfold handleSref
          rw [if_neg (not_not_intro hv), if_neg (not_not_intro hr), if_pos hp]
        exact ⟨by rw [hall fr], ⟨"Invalid parameter", by rw [hall fr]⟩,
          fun fr2 => (hall fr2).trans (hall fr).symm⟩
      · have hall : ∀ fr2 : Except FetchErr Raw,
            handleSref st station run param date ip now fr2 =
              (.badRequest "Invalid run time", st) := fun fr2 => by
          unfold handleSref
          rw [if_neg (not_not_intro hv), if_pos hr]
        exact ⟨by rw [hall fr], ⟨"Invalid run time", by rw [hall fr]⟩,
          fun fr2 => (hall fr2).trans (hall fr).symm⟩
    · have hall : ∀ fr2 : Except FetchErr Raw,
          handleSref st station run param date ip now fr2 =
            (.badRequest "Invalid station format", st) := fun fr2 => by
        unfold handleSref
        rw [if_pos hv]
      exact ⟨by rw [hall fr], ⟨"Invalid station format", by rw [hall fr]⟩,
        fun fr2 => (hall fr2).trans (hall fr).symm⟩
  · intro hv hr hp hmiss hdeny
    have hstate := getFromCache_miss_state st.cache (cacheKey date run station param) now hmiss
    have hrun : ∀ fr2 : Except FetchErr Raw, handleSref st station run param date ip now fr2 =
        (.rateLimited, ⟨(getFromCache st.cache (cacheKey date run station param) now).2,
          (checkApiRateLimit st.buckets ip now).2⟩) := by
      intro fr2
      unfold handleSref
      rw [if_neg (not_not_intro hv), if_neg (not_not_intro hr), if_neg (not_not_intro hp)]
      rcases hget : getFromCache st.cache (cacheKey date run station param) now with ⟨c1, c2⟩
      rw [hget] at hmiss
      simp only at hmiss
      subst hmiss
      rcases hadm : checkApiRateLimit st.buckets ip now with ⟨a1, a2⟩
      rw [hadm] at hdeny
      simp only at hdeny
      subst hdeny
      simp [hget, hadm]
    refine ⟨hrun fr, ?_, ?_, ?_, ?_, fun fr2 => (hrun fr2).trans (hrun fr).symm⟩
    · rw [hrun fr]
      exact hstate.1
    · rw [hrun fr]
      exact hstate.2.1
    · intro k2 hk2
      rw [hrun fr]
      exact hstate.2.2.1 k2 hk2
    · intro habs
      rw [hrun fr]
      exact hstate.2.2.2 habs

/-- Witness for the amended short-circuit theorem: an invalid station is
rejected with the state unchanged; a valid request against an exhausted
bucket and an absent key is denied with the cache exactly unchanged. -/
theorem handler_shortCircuit_amended_witness :
    (¬ validStation "j2k" ∧
      (handleSref ⟨[], []⟩ "j2k" "03" "Total-QPF" "2025-01-01" "ip" 0 (.ok [])).2 = ⟨[], []⟩) ∧
    (validStation "JFK" ∧ ("03" : String) ∈ validRuns ∧ ("Total-QPF" : String) ∈ validParams ∧
      (getFromCache ([] : Cache Processed) (cacheKey "2025-01-01" "03" "JFK" "Total-QPF") 100).1
        = none ∧
      (checkApiRateLimit [("ip", ⟨0, 100⟩)] "ip" 100).1 = false ∧
      handleSref ⟨[], [("ip", ⟨0, 100⟩)]⟩ "JFK" "03" "Total-QPF" "2025-01-01" "ip" 100 (.ok []) =
        (.rateLimited, ⟨(getFromCache ([] : Cache Processed)
            (cacheKey "2025-01-01" "03" "JFK" "Total-QPF") 100).2,
          (checkApiRateLimit [("ip", ⟨0, 100⟩)] "ip" 100).2⟩)) := by
  constructor
  · refine ⟨by decide, ?_⟩
    have h := (handler_shortCircuit_amended ⟨[], []⟩ "j2k" "03" "Total-QPF" "2025-01-01"
      "ip" 0 (.ok [])).1 (Or.inl (by decide))
    exact h.1
  · refine ⟨by decide, by decide, by decide, by decide, by decide, ?_⟩
    have h := (handler_shortCircuit_amended ⟨[], [("ip", ⟨0, 100⟩)]⟩ "JFK" "03" "Total-QPF"
      "2025-01-01" "ip" 100 (.ok [])).2 (by decide) (by decide) (by decide) (by decide)
      (by decide)
    exact h.1

/-- Claim C8: a validated, admitted miss whose fetched result processes to
fewer than 10 member series is returned as a success tagged INCOMPLETE,
and the store receives no write: the requested key is absent afterwards
(so a later request fetches afresh), every other key is untouched, nothing
is added, and when the key was absent before, the cache is exactly
unchanged. -/
theorem incomplete_fetch_not_cached (st : ServerState)
    (station run param date ip : String) (now : Nat) (raw : Raw)
    (hv : validStation station) (hr : run ∈ validRuns) (hp : param ∈ validParams)
    (hmiss : (getFromCache st.cache (cacheKey date run station param) now).1 = none)
    (hallow : (checkApiRateLimit st.buckets ip now).1 = true)
    (hcount : memberCount (processData raw) < 10) :
    handleSref st station run param date ip now (.ok raw) =
        (.success (processData raw) "INCOMPLETE",
          ⟨(getFromCache st.cache (cacheKey date run station param) now).2,
            (checkApiRateLimit st.buckets ip now).2⟩) ∧
      alGet (handleSref st station run param date ip now (.ok raw)).2.cache
        (cacheKey date run station param) = none ∧
      List.Sublist (handleSref st station run param date ip now (.ok raw)).2.cache st.cache ∧
      (∀ k2, k2 ≠ cacheKey date run station param →
        alGet (handleSref st station run param date ip now (.ok raw)).2.cache k2 =
          alGet st.cache k2) ∧
      (alGet st.cache (cacheKey date run station param) = none →
        (handleSref st station run param date ip now (.ok raw)).2.cache = st.cache) := by
  have hstate := getFromCache_miss_state st.cache (cacheKey date run station param) now hmiss
  have hrun : handleSref st station run param date ip now (.ok raw) =
      (.success (processData raw) "INCOMPLETE",
        ⟨(getFromCache st.cache (cacheKey date run station param) now).2,
          (checkApiRateLimit st.buckets ip now).2⟩) := by
    unfold handleSref
    rw [if_neg (not_not_intro hv), if_neg (not_not_intro hr), if_neg (not_not_intro hp)]
    rcases hget : getFromCache st.cache (cacheKey date run station param) now with ⟨c1, c2⟩
    rw [hget] at hmiss
    simp only at hmiss
    subst hmiss
    rcases hadm : checkApiRateLimit st.buckets ip now with ⟨a1, a2⟩
    rw [hadm] at hallow
    simp only at hallow
    subst hallow
    simp [hget, hadm, Nat.not_le.mpr hcount]
  refine ⟨hrun, ?_, ?_, ?_, ?_⟩
  · rw [hrun]
    exact hstate.1
  · rw [hrun]
    exact hstate.2.1
  · intro k2 hk2
    rw [hrun]
    exact hstate.2.2.1 k2 hk2
  · intro habs
    rw [hrun]
    exact hstate.2.2.2 habs

/-- Witness for the incomplete-fetch theorem: an empty upstream map (zero
members) is served INCOMPLETE and the empty cache stays empty. -/
theorem incomplete_fetch_not_cached_witness :
    validStation "JFK" ∧ ("03" : String) ∈ validRuns ∧ ("Total-QPF" : String) ∈ validParams ∧
      (getFromCache ([] : Cache Processed) (cacheKey "2025-01-01" "03" "JFK" "Total-QPF") 5).1
        = none ∧
      (checkApiRateLimit [] "ip" 5).1 = true ∧ memberCount (processData []) < 10 ∧
      handleSref ⟨[], []⟩ "JFK" "03" "Total-QPF" "2025-01-01" "ip" 5 (.ok []) =
        (.success (processData []) "INCOMPLETE",
          ⟨(getFromCache ([] : Cache Processed)
              (cacheKey "2025-01-01" "03" "JFK" "Total-QPF") 5).2,
            (checkApiRateLimit [] "ip" 5).2⟩) := by
  refine ⟨by decide, by decide, by decide, by decide, by decide, by decide, ?_⟩
  exact (incomplete_fetch_not_cached ⟨[], []⟩ "JFK" "03" "Total-QPF" "2025-01-01" "ip" 5 []
    (by decide) (by decide) (by decide) (by decide) (by decide) (by decide)).1


/-! ## Claim C4: size-bounded eviction -/

instance : IsTotal (String × CacheEntry α)
    (fun a b => a.2.cachedAt ≤ b.2.cachedAt) :=
  ⟨fun a b => Nat.le_total a.2.cachedAt b.2.cachedAt⟩

instance : IsTrans (String × CacheEntry α)
    (fun a b => a.2.cachedAt ≤ b.2.cachedAt) :=
  ⟨fun _ _ _ hab hbc => Nat.le_trans hab hbc⟩

theorem foldl_alDelete_eq_filter (ks : List String) (c : List (String × α)) :
    ks.foldl (fun acc k => alDelete acc k) c =
      c.filter fun p => decide (p.1 ∉ ks) := by
  induction ks generalizing c with
  | nil =>
      simp only [List.foldl_nil]
      exact (List.filter_eq_self.mpr fun a _ => by simp).symm
  | cons k ks ih =>
      simp only [List.foldl_cons]
      rw [ih, alDelete_eq_filter, List.filter_filter]
      apply List.filter_congr
      intro p _
      by_cases h1 : p.1 = k <;> by_cases h2 : p.1 ∈ ks <;> simp [h1, h2]

theorem evictOldest_eq_filter (c : Cache α) :
    evictOldest c = c.filter fun p => decide (p.1 ∉ evictVictims c) :=
  foldl_alDelete_eq_filter (evictVictims c) c

theorem nodupKeys_of_perm {c c2 : List (String × α)} (h : List.Perm c c2)
    (hd : NodupKeys c) : NodupKeys c2 := by
  unfold NodupKeys alKeys at hd ⊢
  exact ((h.map (·.1)).nodup_iff).mp hd

/-- The eviction sweep taken by a full store removes exactly the
`EVICT_COUNT` oldest entries. -/
theorem evictOldest_spec (c : Cache α) (hd : NodupKeys c)
    (hfull : CACHE_MAX_ENTRIES ≤ c.length) :
    (evictVictims c).length = EVICT_COUNT ∧
      (∀ key ∈ evictVictims c, alGet (evictOldest c) key = none) ∧
      (∀ p ∈ c, p.1 ∉ evictVictims c → p ∈ evictOldest c) ∧
      (∀ p ∈ c, p.1 ∈ evictVictims c →
        ∀ q ∈ evictOldest c, p.2.cachedAt ≤ q.2.cachedAt) ∧
      (evictOldest c).length = c.length - EVICT_COUNT := by
  have hperm : List.Perm (cacheByAge c) c := List.perm_insertionSort _ c
  have hst : List.Sorted (fun a b : String × CacheEntry α => a.2.cachedAt ≤ b.2.cachedAt)
      (cacheByAge c) := List.sorted_insertionSort _ c
  have hd2 : NodupKeys (cacheByAge c) := nodupKeys_of_perm hperm.symm hd
  have hlen_s : (cacheByAge c).length = c.length := hperm.length_eq
  have hsplit : (cacheByAge c).take EVICT_COUNT ++ (cacheByAge c).drop EVICT_COUNT =
      cacheByAge c := List.take_append_drop _ _
  have hkeys : alKeys ((cacheByAge c).take EVICT_COUNT) ++
      alKeys ((cacheByAge c).drop EVICT_COUNT) = alKeys (cacheByAge c) := by
    rw [← hsplit]
    unfold alKeys
    rw [List.map_append]
    rw [hsplit]
  have hdisj : ∀ s ∈ alKeys ((cacheByAge c).drop EVICT_COUNT),
      s ∉ evictVictims c := by
    intro s hs hsv
    have hnd : (alKeys ((cacheByAge c).take EVICT_COUNT) ++
        alKeys ((cacheByAge c).drop EVICT_COUNT)).Nodup := by
      rw [hkeys]
      exact hd2
    exact (List.disjoint_of_nodup_append hnd) hsv hs
  have hvlen : (evictVictims c).length = EVICT_COUNT := by
    unfold evictVictims
    rw [List.length_map, List.length_take, hlen_s]
    have : EVICT_COUNT ≤ c.length := by
      unfold EVICT_COUNT
      unfold CACHE_MAX_ENTRIES at hfull
      omega
    omega
  have hfilter_take : ((cacheByAge c).take EVICT_COUNT).filter
      (fun p => decide (p.1 ∉ evictVictims c)) = [] := by
    rw [List.filter_eq_nil_iff]
    intro p hp
    have : p.1 ∈ evictVictims c := List.mem_map_of_mem _ hp
    simp [this]
  have hfilter_drop : ((cacheByAge c).drop EVICT_COUNT).filter
      (fun p => decide (p.1 ∉ evictVictims c)) = (cacheByAge c).drop EVICT_COUNT := by
    rw [List.filter_eq_self]
    intro q hq
    have : q.1 ∉ evictVictims c := hdisj q.1 (List.mem_map_of_mem _ hq)
    simp [this]
  have hfsorted : (cacheByAge c).filter (fun p => decide (p.1 ∉ evictVictims c)) =
      (cacheByAge c).drop EVICT_COUNT := by
    rw [← hsplit, List.filter_append, hfilter_take, hfilter_drop, List.nil_append, hsplit]
  have hlenf : (evictOldest c).length = c.length - EVICT_COUNT := by
    rw [evictOldest_eq_filter]
    have hpf := (hperm.filter (fun p => decide (p.1 ∉ evictVictims c))).length_eq
    rw [← hpf, hfsorted, List.length_drop, hlen_s]
  refine ⟨hvlen, ?_, ?_, ?_, hlenf⟩
  · intro key hkey
    rw [evictOldest_eq_filter, alGet_eq_none_iff]
    intro hmem
    have halk : alKeys (c.filter fun p => decide (p.1 ∉ evictVictims c)) =
        (alKeys c).filter fun s => decide (s ∉ evictVictims c) :=
      alKeys_filter c fun s => decide (s ∉ evictVictims c)
    rw [halk] at hmem
    have := (List.mem_filter.mp hmem).2
    simp [hkey] at this
  · intro p hp hnv
    rw [evictOldest_eq_filter]
    exact List.mem_filter.mpr ⟨hp, by simp [hnv]⟩
  · intro p hp hpv q hq
    have hps : p ∈ cacheByAge c := hperm.mem_iff.mpr hp
    obtain ⟨p2, hp2T, hp2key⟩ := List.mem_map.mp hpv
    have hp2s : p2 ∈ cacheByAge c := List.take_subset _ _ hp2T
    have hpeq : p = p2 := nodupKeys_entry_unique _ hd2 p p2 hps hp2s hp2key.symm
    rw [evictOldest_eq_filter] at hq
    obtain ⟨hqc, hqv⟩ := List.mem_filter.mp hq
    have hqs : q ∈ cacheByAge c := hperm.mem_iff.mpr hqc
    have hqnT : q ∉ (cacheByAge c).take EVICT_COUNT := by
      intro hqT
      have : q.1 ∈ evictVictims c := List.mem_map_of_mem _ hqT
      simp [this] at hqv
    have hqD : q ∈ (cacheByAge c).drop EVICT_COUNT := by
      rw [← hsplit] at hqs
      rcases List.mem_append.mp hqs with h | h
      · exact absurd h hqnT
      · exact h
    have hpairs := List.pairwise_append.mp (hsplit ▸ hst)
    rw [hpeq]
    exact hpairs.2.2 p2 hp2T q hqD

theorem nodupKeys_evictOldest (c : Cache α) (hd : NodupKeys c) :
    NodupKeys (evictOldest c) := by
  rw [evictOldest_eq_filter]
  exact nodupKeys_filter c _ hd

theorem nodupKeys_setInCache (c : Cache α) (k : String) (d : α) (now : Nat)
    (hd : NodupKeys c) : NodupKeys (setInCache c k d now) := by
  unfold setInCache
  by_cases hfull : CACHE_MAX_ENTRIES ≤ c.length
  · rw [if_pos hfull]
    exact nodupKeys_alSet _ _ _ (nodupKeys_evictOldest c hd)
  · rw [if_neg hfull]
    exact nodupKeys_alSet _ _ _ hd

theorem setInCache_length_bound (c : Cache α) (k : String) (d : α) (now : Nat)
    (hd : NodupKeys c) (hb : c.length ≤ CACHE_MAX_ENTRIES) :
    (setInCache c k d now).length ≤ CACHE_MAX_ENTRIES := by
  simp only [setInCache]
  by_cases hfull : CACHE_MAX_ENTRIES ≤ c.length
  · rw [if_pos hfull]
    have hev := (evictOldest_spec c hd hfull).2.2.2.2
    have hset := length_alSet (evictOldest c) k
      ⟨d, now + CACHE_TTL_DAYS * 24 * 60 * 60 * 1000, now⟩
    unfold CACHE_MAX_ENTRIES EVICT_COUNT at *
    by_cases hmem : k ∈ alKeys (evictOldest c) <;> simp [hmem] at hset <;> omega
  · rw [if_neg hfull]
    have hset := length_alSet c k ⟨d, now + CACHE_TTL_DAYS * 24 * 60 * 60 * 1000, now⟩
    by_cases hmem : k ∈ alKeys c <;> simp [hmem] at hset <;> omega

theorem applyPuts_invariant (ops : List (String × α × Nat)) :
    ∀ c : Cache α, NodupKeys c → c.length ≤ CACHE_MAX_ENTRIES →
      NodupKeys (ops.foldl (fun c2 op => setInCache c2 op.1 op.2.1 op.2.2) c) ∧
        (ops.foldl (fun c2 op => setInCache c2 op.1 op.2.1 op.2.2) c).length ≤
          CACHE_MAX_ENTRIES := by
  induction ops with
  | nil => exact fun c hd hb => ⟨hd, hb⟩
  | cons op ops ih =>
      intro c hd hb
      simp only [List.foldl_cons]
      exact ih _ (nodupKeys_setInCache _ _ _ _ hd) (setInCache_length_bound _ _ _ _ hd hb)

/-- Claim C4: the store never grows past `CACHE_MAX_ENTRIES` under any
sequence of puts, and the eviction a full-store put performs removes
exactly the `EVICT_COUNT` oldest entries by `cachedAt` (every victim key
is gone, every other entry survives, every victim is at least as old as
every survivor) while the newly inserted entry is always present
afterwards. -/
theorem cache_eviction_bound :
    (∀ (α : Type) (ops : List (String × α × Nat)),
      (applyPuts ops).length ≤ CACHE_MAX_ENTRIES) ∧
    ∀ (α : Type) (c : Cache α) (k : String) (d : α) (now : Nat),
      NodupKeys c → CACHE_MAX_ENTRIES ≤ c.length →
      (evictVictims c).length = EVICT_COUNT ∧
        (∀ key ∈ evictVictims c, alGet (evictOldest c) key = none) ∧
        (∀ p ∈ c, p.1 ∉ evictVictims c → p ∈ evictOldest c) ∧
        (∀ p ∈ c, p.1 ∈ evictVictims c →
          ∀ q ∈ evictOldest c, p.2.cachedAt ≤ q.2.cachedAt) ∧
        setInCache c k d now =
          alSet (evictOldest c) k ⟨d, now + CACHE_TTL_DAYS * 24 * 60 * 60 * 1000, now⟩ ∧
        alGet (setInCache c k d now) k =
          some ⟨d, now + CACHE_TTL_DAYS * 24 * 60 * 60 * 1000, now⟩ ∧
        (setInCache c k d now).length ≤ c.length - EVICT_COUNT + 1 := by
  constructor
  · intro α ops
    exact ((applyPuts_invariant ops) [] (by simp [NodupKeys, alKeys]) (by simp)).2
  · intro α c k d now hd hfull
    obtain ⟨h1, h2, h3, h4, h5⟩ := evictOldest_spec c hd hfull
    have hset : setInCache c k d now =
        alSet (evictOldest c) k ⟨d, now + CACHE_TTL_DAYS * 24 * 60 * 60 * 1000, now⟩ := by
      simp only [setInCache]
      rw [if_pos hfull]
    refine ⟨h1, h2, h3, h4, hset, ?_, ?_⟩
    · rw [hset]
      exact alGet_alSet_self _ _ _
    · rw [hset]
      have hlen := length_alSet (evictOldest c) k
        ⟨d, now + CACHE_TTL_DAYS * 24 * 60 * 60 * 1000, now⟩
      by_cases hmem : k ∈ alKeys (evictOldest c) <;> simp [hmem] at hlen <;> omega

/-- Witness for the eviction theorem: the sequence bound at a concrete
two-put sequence, and the full-store conjunct applied to a concrete
1000-entry store (keys of distinct lengths, so distinct). -/
theorem cache_eviction_bound_witness :
    (applyPuts [("a", 1, 0), ("b", 2, 5)] : Cache Nat).length ≤ CACHE_MAX_ENTRIES ∧
      NodupKeys ((List.range CACHE_MAX_ENTRIES).map fun i =>
        (String.mk (List.replicate i 'a'), (⟨0, 0, i⟩ : CacheEntry Nat))) ∧
      CACHE_MAX_ENTRIES ≤ ((List.range CACHE_MAX_ENTRIES).map fun i =>
        (String.mk (List.replicate i 'a'), (⟨0, 0, i⟩ : CacheEntry Nat))).length ∧
      alGet (setInCache ((List.range CACHE_MAX_ENTRIES).map fun i =>
          (String.mk (List.replicate i 'a'), (⟨0, 0, i⟩ : CacheEntry Nat))) "k" 7 3) "k" =
        some ⟨7, 3 + CACHE_TTL_DAYS * 24 * 60 * 60 * 1000, 3⟩ := by
  have hd : NodupKeys ((List.range CACHE_MAX_ENTRIES).map fun i =>
      (String.mk (List.replicate i 'a'), (⟨0, 0, i⟩ : CacheEntry Nat))) := by
    unfold NodupKeys alKeys
    rw [List.map_map]
    apply List.Nodup.map
    · intro i j hij
      simp only [Function.comp] at hij
      have : (List.replicate i 'a').length = (List.replicate j 'a').length := by
        rw [show List.replicate i 'a' = List.replicate j 'a' from congrArg String.data hij]
      simpa using this
    · exact List.nodup_range _
  have hlen : ((List.range CACHE_MAX_ENTRIES).map fun i =>
      (String.mk (List.replicate i 'a'), (⟨0, 0, i⟩ : CacheEntry Nat))).length =
        CACHE_MAX_ENTRIES := by
    simp
  refine ⟨cache_eviction_bound.1 Nat _, hd, by rw [hlen], ?_⟩
  exact (cache_eviction_bound.2 Nat _ "k" 7 3 hd (by rw [hlen])).2.2.2.2.2.1


/-! ## Claim C5: the Mean series -/

/-- The sum of the values the members contribute at time `t` (with
distinct timestamps per member, each member contributes its value at `t`
or nothing). -/
def specSum (ms : Processed) (t : Nat) : ℚ :=
  (ms.map fun m => ((m.2.filter fun p => decide (p.x = t)).map Point.y).sum).sum

/-- The number of members that have a point at exactly time `t`. -/
def specCount (ms : Processed) (t : Nat) : Nat :=
  (ms.filter fun m => m.2.any fun p => decide (p.x = t)).length

theorem filter_eq_singleton_of_find? (pts : List Point) (t : Nat) (p0 : Point)
    (hnd : (pts.map Point.x).Nodup)
    (hf : pts.find? (fun p => decide (p.x = t)) = some p0) :
    pts.filter (fun p => decide (p.x = t)) = [p0] := by
  induction pts with
  | nil => cases hf
  | cons q rest ih =>
      rw [List.map_cons, List.nodup_cons] at hnd
      rw [List.find?_cons] at hf
      cases hq : decide (q.x = t) with
      | true =>
          rw [hq] at hf
          have hf2 : some q = some p0 := hf
          injection hf2 with hf2
          subst hf2
          rw [List.filter_cons, if_pos hq]
          have hrest : rest.filter (fun p => decide (p.x = t)) = [] := by
            rw [List.filter_eq_nil_iff]
            intro p hp
            have hqx : q.x = t := of_decide_eq_true hq
            simp only [decide_eq_true_eq]
            intro hpt
            exact hnd.1 (by rw [hqx, ← hpt]; exact List.mem_map_of_mem _ hp)
          rw [hrest]
      | false =>
          rw [hq] at hf
          have hf2 : List.find? (fun p => decide (p.x = t)) rest = some p0 := hf
          rw [List.filter_cons, if_neg (by simp [hq])]
          exact ih hnd.2 hf2

theorem specSum_cons (m : String × List Point) (rest : Processed) (t : Nat) :
    specSum (m :: rest) t =
      ((m.2.filter fun p => decide (p.x = t)).map Point.y).sum + specSum rest t := by
  unfold specSum
  rw [List.map_cons, List.sum_cons]

theorem specCount_cons (m : String × List Point) (rest : Processed) (t : Nat) :
    specCount (m :: rest) t =
      (if (m.2.any fun p => decide (p.x = t)) then 1 else 0) + specCount rest t := by
  unfold specCount
  rw [List.filter_cons]
  by_cases h : (m.2.any fun p => decide (p.x = t)) = true
  · rw [if_pos h, if_pos h, List.length_cons]
    omega
  · rw [if_neg h, if_neg h]
    omega

theorem contrib_eq (ms : Processed) (t : Nat)
    (hnd : ∀ m ∈ ms, ((m.2.map Point.x).Nodup)) :
    ((ms.filterMap fun kp => kp.2.find? fun p => decide (p.x = t)).map Point.y).sum =
        specSum ms t ∧
      (ms.filterMap fun kp => kp.2.find? fun p => decide (p.x = t)).length =
        specCount ms t := by
  induction ms with
  | nil => exact ⟨rfl, rfl⟩
  | cons m rest ih =>
      have ihr := ih fun m2 hm2 => hnd m2 (List.mem_cons_of_mem m hm2)
      have hm := hnd m (List.mem_cons_self m rest)
      rw [specSum_cons, specCount_cons, List.filterMap_cons]
      cases hf : m.2.find? fun p => decide (p.x = t) with
      | none =>
          have hnone := List.find?_eq_none.mp hf
          have hfil : m.2.filter (fun p => decide (p.x = t)) = [] := by
            rw [List.filter_eq_nil_iff]
            exact hnone
          have hany : (m.2.any fun p => decide (p.x = t)) = false := by
            rw [List.any_eq_false]
            exact hnone
          rw [hfil, hany]
          simp only [List.map_nil, List.sum_nil, zero_add, Bool.false_eq_true, if_false]
          exact ⟨ihr.1, by rw [ihr.2]⟩
      | some p0 =>
          have hfil := filter_eq_singleton_of_find? m.2 t p0 hm hf
          have hany : (m.2.any fun p => decide (p.x = t)) = true := by
            rw [List.any_eq_true]
            have hfs := List.find?_some hf
            exact ⟨p0, List.mem_of_find?_eq_some hf, hfs⟩
          rw [hfil, hany]
          simp only [List.map_cons, List.sum_cons, List.map_nil, List.sum_nil, add_zero,
            if_true, List.length_cons]
          rw [ihr.1, ihr.2]
          exact ⟨rfl, by omega⟩

theorem mem_foldl_insertUniq (ts : List Nat) :
    ∀ (acc : List Nat) (t : Nat), t ∈ ts.foldl insertUniq acc ↔ t ∈ acc ∨ t ∈ ts := by
  induction ts with
  | nil => simp
  | cons t0 ts ih =>
      intro acc t
      rw [List.foldl_cons, ih]
      unfold insertUniq
      by_cases h0 : t0 ∈ acc
      · rw [if_pos h0]
        constructor
        · rintro (h | h)
          · exact Or.inl h
          · exact Or.inr (List.mem_cons_of_mem _ h)
        · rintro (h | h)
          · exact Or.inl h
          · rcases List.mem_cons.mp h with rfl | h
            · exact Or.inl h0
            · exact Or.inr h
      · rw [if_neg h0]
        simp only [List.mem_append, List.mem_singleton, List.mem_cons]
        tauto

theorem nodup_foldl_insertUniq (ts : List Nat) :
    ∀ acc : List Nat, acc.Nodup → (ts.foldl insertUniq acc).Nodup := by
  induction ts with
  | nil => exact fun acc h => h
  | cons t0 ts ih =>
      intro acc hacc
      rw [List.foldl_cons]
      apply ih
      unfold insertUniq
      by_cases h0 : t0 ∈ acc
      · rw [if_pos h0]
        exact hacc
      · rw [if_neg h0]
        exact List.Nodup.append hacc (List.nodup_singleton t0)
          fun a ha hb => h0 ((List.mem_singleton.mp hb) ▸ ha)

theorem mem_timePoints (raw : Raw) (t : Nat) :
    t ∈ timePoints raw ↔ ∃ ld ∈ keptMembers raw, t ∈ ld.2.map (·.1) := by
  unfold timePoints
  have main : ∀ (ls : List (String × List (Nat × Option ℚ))) (acc : List Nat),
      t ∈ ls.foldl (fun acc ld => (ld.2.map (·.1)).foldl insertUniq acc) acc ↔
        t ∈ acc ∨ ∃ ld ∈ ls, t ∈ ld.2.map (·.1) := by
    intro ls
    induction ls with
    | nil => simp
    | cons ld ls ih =>
        intro acc
        rw [List.foldl_cons, ih, mem_foldl_insertUniq]
        simp only [List.mem_cons]
        constructor
        · rintro ((h | h) | ⟨ld2, hld2, ht⟩)
          · exact Or.inl h
          · exact Or.inr ⟨ld, Or.inl rfl, h⟩
          · exact Or.inr ⟨ld2, Or.inr hld2, ht⟩
        · rintro (h | ⟨ld2, (rfl | hld2), ht⟩)
          · exact Or.inl (Or.inl h)
          · exact Or.inl (Or.inr ht)
          · exact Or.inr ⟨ld2, hld2, ht⟩
  rw [main]
  simp

theorem nodup_timePoints (raw : Raw) : (timePoints raw).Nodup := by
  unfold timePoints
  have main : ∀ (ls : List (String × List (Nat × Option ℚ))) (acc : List Nat), acc.Nodup →
      (ls.foldl (fun acc ld => (ld.2.map (·.1)).foldl insertUniq acc) acc).Nodup := by
    intro ls
    induction ls with
    | nil => exact fun acc h => h
    | cons ld ls ih =>
        intro acc hacc
        rw [List.foldl_cons]
        exact ih _ (nodup_foldl_insertUniq _ acc hacc)
  exact main _ [] List.nodup_nil

theorem toPoints_map_x (d : List (Nat × Option ℚ)) :
    (toPoints d).map Point.x = d.map (·.1) := by
  unfold toPoints
  rw [List.map_map]
  rfl

theorem mem_members_iff (raw : Raw) (m : String × List Point) :
    m ∈ members raw ↔ ∃ ld ∈ keptMembers raw, m = (ld.1, toPoints ld.2) := by
  unfold members
  rw [List.mem_map]
  constructor
  · rintro ⟨ld, hld, rfl⟩
    exact ⟨ld, hld, rfl⟩
  · rintro ⟨ld, hld, rfl⟩
    exact ⟨ld, hld, rfl⟩

theorem members_nodup_x (raw : Raw)
    (hnodupx : ∀ ls ∈ raw, ∀ d, ls.2 = some d → ((d.map (·.1)).Nodup)) :
    ∀ m ∈ members raw, ((m.2.map Point.x).Nodup) := by
  intro m hm
  obtain ⟨ld, hld, rfl⟩ := (mem_members_iff raw m).mp hm
  obtain ⟨orig, horig, heq⟩ := List.mem_filterMap.mp hld
  cases horigd : orig.2 with
  | none => rw [horigd] at heq; cases heq
  | some d =>
      rw [horigd] at heq
      have heq2 : (if d.isEmpty = true then (none : Option (String × List (Nat × Option ℚ)))
          else some (orig.1, d)) = some ld := heq
      by_cases hde : d.isEmpty = true
      · rw [if_pos hde] at heq2
        cases heq2
      · rw [if_neg hde] at heq2
        injection heq2 with heq2
        cases heq2
        rw [toPoints_map_x]
        exact hnodupx orig horig d horigd

theorem members_ne_nil (raw : Raw)
    (hne : ∃ ls ∈ raw, ∃ d, ls.2 = some d ∧ d ≠ []) : members raw ≠ [] := by
  obtain ⟨ls, hls, d, hd, hdne⟩ := hne
  intro hc
  have hkept : keptMembers raw = [] := by
    unfold members at hc
    exact List.map_eq_nil_iff.mp hc
  unfold keptMembers at hkept
  rw [List.filterMap_eq_nil_iff] at hkept
  have hnone := hkept ls hls
  rw [hd] at hnone
  have hde : d.isEmpty = false := by
    rcases d with _ | _
    · exact absurd rfl hdne
    · rfl
  have hnone2 : (if d.isEmpty then (none : Option (String × List (Nat × Option ℚ)))
      else some (ls.1, d)) = none := hnone
  rw [hde] at hnone2
  simp at hnone2

/-- Claim C5: when some label carries a non-empty series (and, as the data
model guarantees, timestamps inside one member are distinct and `Mean` is
not itself an upstream label), the processed result contains `Mean`; its
timestamps are exactly the strictly-ascending union of the member
timestamps, and its value at each of those timestamps is the sum of the
values of exactly the members with a point there divided by their number —
members without a point at that timestamp are excluded, not counted as
zero. -/
theorem processData_mean_correct (raw : Raw)
    (hne : ∃ ls ∈ raw, ∃ d, ls.2 = some d ∧ d ≠ [])
    (hnodupx : ∀ ls ∈ raw, ∀ d, ls.2 = some d → ((d.map (·.1)).Nodup))
    (hM : "Mean" ∉ raw.map (·.1)) :
    alGet (processData raw) "Mean" =
        some ((sortedTimes raw).map (meanAt (members raw))) ∧
      ((sortedTimes raw).map (meanAt (members raw))).map Point.x = sortedTimes raw ∧
      List.Pairwise (· < ·) (sortedTimes raw) ∧
      (∀ t, t ∈ sortedTimes raw ↔ ∃ m ∈ members raw, t ∈ m.2.map Point.x) ∧
      ∀ pt ∈ (sortedTimes raw).map (meanAt (members raw)),
        0 < specCount (members raw) pt.x ∧
          pt.y = specSum (members raw) pt.x / specCount (members raw) pt.x := by
  have hmem_sorted : ∀ t, t ∈ sortedTimes raw ↔ t ∈ timePoints raw := by
    intro t
    unfold sortedTimes
    exact (List.perm_insertionSort _ _).mem_iff
  have hmem_sorted2 : ∀ t, t ∈ sortedTimes raw ↔
      ∃ m ∈ members raw, t ∈ m.2.map Point.x := by
    intro t
    rw [hmem_sorted, mem_timePoints]
    constructor
    · rintro ⟨ld, hld, ht⟩
      refine ⟨(ld.1, toPoints ld.2), (mem_members_iff raw _).mpr ⟨ld, hld, rfl⟩, ?_⟩
      rw [toPoints_map_x]
      exact ht
    · rintro ⟨m, hm, ht⟩
      obtain ⟨ld, hld, rfl⟩ := (mem_members_iff raw m).mp hm
      rw [toPoints_map_x] at ht
      exact ⟨ld, hld, ht⟩
  refine ⟨?_, ?_, ?_, hmem_sorted2, ?_⟩
  · have hms : (members raw).isEmpty = false := by
      rcases h : members raw with _ | _
      · exact absurd h (members_ne_nil raw hne)
      · rfl
    simp only [processData]
    rw [hms]
    simp only [Bool.false_eq_true, if_false]
    exact alGet_alSet_self _ _ _
  · rw [List.map_map]
    have hcomp : (Point.x ∘ meanAt (members raw)) = fun t => t := by
      funext t
      rfl
    rw [hcomp]
    exact List.map_id' _
  · have hsorted : List.Sorted (· ≤ ·) (sortedTimes raw) :=
      List.sorted_insertionSort _ _
    have hnd : (sortedTimes raw).Nodup := by
      unfold sortedTimes
      exact ((List.perm_insertionSort _ _).nodup_iff).mpr (nodup_timePoints raw)
    exact (hsorted.and hnd).imp fun h => lt_of_le_of_ne h.1 h.2
  · intro pt hpt
    obtain ⟨t, ht, rfl⟩ := List.mem_map.mp hpt
    have hcontrib := contrib_eq (members raw) t (members_nodup_x raw hnodupx)
    have hpos : 0 < specCount (members raw) t := by
      obtain ⟨m, hm, htm⟩ := (hmem_sorted2 t).mp ht
      unfold specCount
      have hmf : m ∈ (members raw).filter fun m => m.2.any fun p => decide (p.x = t) := by
        apply List.mem_filter.mpr
        refine ⟨hm, ?_⟩
        rw [List.any_eq_true]
        obtain ⟨p, hp, hpx⟩ := List.mem_map.mp htm
        exact ⟨p, hp, by simp [hpx]⟩
      rcases hfl : (members raw).filter fun m => m.2.any fun p => decide (p.x = t) with _ | _
      · rw [hfl] at hmf
        cases hmf
      · simp [hfl]
    refine ⟨hpos, ?_⟩
    show (meanAt (members raw) t).y = _
    simp only [meanAt]
    rw [hcontrib.1, hcontrib.2]
    rw [if_pos hpos]
  
/-- Witness for the Mean theorem at the test vector of the specification:
raw series `A = [(0,10),(3,20)]` and `B = [(0,30)]` give a Mean of 20 at
time 0 and 20 at time 3. -/
theorem processData_mean_correct_witness :
    (∃ ls ∈ ([("A", some [(0, some 10), (3, some 20)]), ("B", some [(0, some 30)])] : Raw),
        ∃ d, ls.2 = some d ∧ d ≠ []) ∧
      alGet (processData [("A", some [(0, some 10), (3, some 20)]), ("B", some [(0, some 30)])])
          "Mean" =
        some ((sortedTimes [("A", some [(0, some 10), (3, some 20)]), ("B", some [(0, some 30)])]).map
          (meanAt (members [("A", some [(0, some 10), (3, some 20)]), ("B", some [(0, some 30)])]))) ∧
      alGet (processData [("A", some [(0, some 10), (3, some 20)]), ("B", some [(0, some 30)])])
          "Mean" = some [⟨0, 20⟩, ⟨3, 20⟩] := by
  refine ⟨⟨("A", some [(0, some 10), (3, some 20)]), by decide, [(0, some 10), (3, some 20)],
    rfl, by decide⟩, ?_, ?_⟩
  · exact (processData_mean_correct _
      ⟨("A", some [(0, some 10), (3, some 20)]), by decide, [(0, some 10), (3, some 20)],
        rfl, by decide⟩
      (by intro ls hls d hd
          rcases List.mem_cons.mp hls with rfl | hls2
          · injection hd with hd
            subst hd
            decide
          · rcases List.mem_cons.mp hls2 with rfl | hls3
            · injection hd with hd
              subst hd
              decide
            · cases hls3)
      (by decide)).1
  · simp [processData, members, keptMembers, toPoints, sortedTimes, timePoints, insertUniq,
      meanAt, alSet, alGet, List.insertionSort, List.orderedInsert, List.find?, List.filterMap]
    norm_num


/-! ## Claim C9: double-JSON-decode tolerance -/

theorem noaaParse_of_str (data s : String) (h : jsonParse data = some (.str s)) :
    noaaParse data =
      match jsonParse s with
      | some w => .ok w
      | none => .ok (.str s) := by
  unfold noaaParse
  rw [h]

theorem noaaParse_of_nonstr (data : String) (v : Json) (h : jsonParse data = some v)
    (hnstr : ∀ s, v ≠ .str s) :
    noaaParse data =
      match jsonParse (jsToString v) with
      | some w => .ok w
      | none => .ok v := by
  unfold noaaParse
  rw [h]
  cases v with
  | null => rfl
  | bool b => rfl
  | num n => rfl
  | str s => exact absurd rfl (hnstr s)
  | arr xs => rfl
  | obj fs => rfl

theorem noaaParse_parseError_iff (data : String) :
    noaaParse data = .error .parseError ↔ jsonParse data = none := by
  cases hjp : jsonParse data with
  | none =>
      unfold noaaParse
      rw [hjp]
      simp
  | some v =>
      unfold noaaParse
      rw [hjp]
      simp only
      generalize (match v with
        | Json.str s => jsonParse s
        | w => jsonParse (jsToString w)) = sec
      cases sec <;> simp

/-- Claim C9 is false on the code as universally stated: for the value
`[1]`, the single-encoded body `[1]` does not parse to the same result as
the double-encoded body.  The inner parse of the single-encoded body
yields the array, the outer `JSON.parse` coerces it to the string `1` and
parses that to the number 1; the double-encoded body yields the array. -/
theorem noaaParse_double_encode_cex :
    jsonParse "[1]" = some (.arr [.num 1]) ∧
      jsonParse "\"[1]\"" = some (.str "[1]") ∧
      noaaParse "\"[1]\"" = .ok (.arr [.num 1]) ∧
      noaaParse "[1]" = .ok (.num 1) ∧
      noaaParse "\"[1]\"" ≠ noaaParse "[1]" := by
  refine ⟨rfl, rfl, rfl, rfl, ?_⟩
  intro h
  rw [show noaaParse "\"[1]\"" = .ok (.arr [.num 1]) from rfl,
    show noaaParse "[1]" = .ok (.num 1) from rfl] at h
  injection h with h2
  cases h2

/-- Claim C9 (amended): for a value `v` that is not a string and whose
JavaScript string coercion either fails to parse as JSON or re-parses to
`v` itself (objects always fail, since they coerce to `[object Object]`),
a double-encoded body and a single-encoded body of `v` parse to the same
result `v`; and the fetch fails with `ParseError` exactly when the body
itself is not JSON (so both decode attempts fail). -/
theorem noaaParse_double_encode_amended (body1 body2 : String) (v : Json)
    (h1 : jsonParse body1 = some v)
    (h2 : jsonParse body2 = some (.str body1))
    (hnstr : ∀ s, v ≠ .str s)
    (hcoerce : jsonParse (jsToString v) = none ∨ jsonParse (jsToString v) = some v) :
    noaaParse body2 = .ok v ∧ noaaParse body1 = .ok v ∧
      ∀ data : String, (noaaParse data = .error .parseError ↔ jsonParse data = none) := by
  refine ⟨?_, ?_, noaaParse_parseError_iff⟩
  · rw [noaaParse_of_str body2 body1 h2, h1]
  · rw [noaaParse_of_nonstr body1 v h1 hnstr]
    rcases hcoerce with hc | hc <;> rw [hc]

/-- Witness at the test vector of the specification: the object body
given both single-encoded and double-encoded. -/
theorem noaaParse_double_encode_amended_witness :
    jsonParse "\x7b\"A\":1\x7d" = some (.obj [("A", .num 1)]) ∧
      jsonParse "\"\x7b\\\"A\\\":1\x7d\"" = some (.str "\x7b\"A\":1\x7d") ∧
      jsonParse (jsToString (.obj [("A", .num 1)])) = none ∧
      noaaParse "\"\x7b\\\"A\\\":1\x7d\"" = .ok (.obj [("A", .num 1)]) ∧
      noaaParse "\x7b\"A\":1\x7d" = .ok (.obj [("A", .num 1)]) := by
  refine ⟨rfl, rfl, rfl, ?_, ?_⟩
  · exact (noaaParse_double_encode_amended "\x7b\"A\":1\x7d" "\"\x7b\\\"A\\\":1\x7d\""
      (.obj [("A", .num 1)]) rfl rfl (fun s h => by cases h) (Or.inl rfl)).1
  · exact (noaaParse_double_encode_amended "\x7b\"A\":1\x7d" "\"\x7b\\\"A\\\":1\x7d\""
      (.obj [("A", .num 1)]) rfl rfl (fun s h => by cases h) (Or.inl rfl)).2.1

end SrefProxy
